import Mathlib

/-!
Verification of the trellisfw-masklink core (src/index.js) against its
natural-language specification.

The development is a shallow embedding of the JavaScript source into Lean:

* JSON values are the inductive type Masklink.Json below.  JavaScript
  objects are modelled as association lists of string keys; a JavaScript
  object can never hold two properties with the same key, so well-formed
  values satisfy Masklink.Json.wfB.  Json.null models both the JS values
  null and undefined (they behave identically in every test the source
  performs: both are falsy and both make property access throw).
* Stateful code is modelled by explicit value passing: a function that
  mutates one of its argument objects in place is modelled by a function
  that also returns the final value of that argument (see signResource and
  reconstructOriginalFromMaskPaths below).
* Fallible code (JS exceptions) is modelled with Except Unit; external
  I/O (the OADA connection) is a parameter get : String -> Option Json
  where none models a failed fetch.
* External collaborators that the spec declares out of scope (the
  canonical hasher tsig.hashJSON, the signer tsig.verify, the RNG behind
  makeNonce) are modelled as deterministic parameters or as a concrete
  deterministic stand-in, exactly as the spec assumes of them.
-/

namespace Masklink

/-- A JSON value: null, boolean, number, string, array, or object.  This is
the data model of spec section 3.  Objects are association lists in
insertion order; JavaScript objects cannot carry a duplicate key, which is
the well-formedness predicate Json.wfB below.  Numbers are modelled as
integers (no claim depends on non-integer arithmetic). -/
inductive Json where
  | null : Json
  | bool : Bool → Json
  | num : Int → Json
  | str : String → Json
  | arr : List Json → Json
  | obj : List (String × Json) → Json

namespace Json

theorem sizeOf_lt_of_mem_arr {x : Json} {xs : List Json} (h : x ∈ xs) :
    sizeOf x < sizeOf (Json.arr xs) := by
  have := List.sizeOf_lt_of_mem h
  simp only [arr.sizeOf_spec]
  omega

theorem sizeOf_lt_of_mem_obj {k : String} {v : Json} {kvs : List (String × Json)}
    (h : (k, v) ∈ kvs) : sizeOf v < sizeOf (Json.obj kvs) := by
  have h1 := List.sizeOf_lt_of_mem h
  have h2 : sizeOf v < sizeOf (k, v) := by simp
  simp only [obj.sizeOf_spec]
  omega

theorem sizeOf_snd_lt_of_mem_obj {kv : String × Json} {kvs : List (String × Json)}
    (h : kv ∈ kvs) : sizeOf kv.2 < sizeOf (Json.obj kvs) :=
  sizeOf_lt_of_mem_obj (k := kv.1) (v := kv.2) (by simpa using h)

mutual

/-- Structural (syntactic) equality test on JSON values. -/
def jeqb : Json → Json → Bool
  | .null, .null => true
  | .bool a, .bool b => a == b
  | .num a, .num b => a == b
  | .str a, .str b => a == b
  | .arr xs, .arr ys => jeqbList xs ys
  | .obj a, .obj b => jeqbKvs a b
  | _, _ => false

/-- Elementwise structural equality of JSON arrays. -/
def jeqbList : List Json → List Json → Bool
  | [], [] => true
  | x :: xs, y :: ys => jeqb x y && jeqbList xs ys
  | _, _ => false

/-- Entrywise structural equality of JSON object entry lists. -/
def jeqbKvs : List (String × Json) → List (String × Json) → Bool
  | [], [] => true
  | (k1, v1) :: xs, (k2, v2) :: ys => k1 == k2 && jeqb v1 v2 && jeqbKvs xs ys
  | _, _ => false

end

theorem jeqbList_sound_of (xs ys : List Json)
    (H : ∀ x ∈ xs, ∀ y : Json, jeqb x y = true → x = y) :
    jeqbList xs ys = true → xs = ys := by
  induction xs generalizing ys with
  | nil => cases ys <;> simp [jeqbList]
  | cons x xs ih =>
    cases ys with
    | nil => simp [jeqbList]
    | cons y ys =>
      intro h
      rw [jeqbList, Bool.and_eq_true] at h
      have hx := H x (by simp) y h.1
      have hxs := ih ys (fun z hz => H z (List.mem_cons_of_mem x hz)) h.2
      rw [hx, hxs]

theorem jeqbKvs_sound_of (xs ys : List (String × Json))
    (H : ∀ kv ∈ xs, ∀ y : Json, jeqb kv.2 y = true → kv.2 = y) :
    jeqbKvs xs ys = true → xs = ys := by
  induction xs generalizing ys with
  | nil => cases ys <;> simp [jeqbKvs]
  | cons x xs ih =>
    cases ys with
    | nil => cases x; simp [jeqbKvs]
    | cons y ys =>
      intro h
      cases x with
      | mk k1 v1 =>
        cases y with
        | mk k2 v2 =>
          rw [jeqbKvs, Bool.and_eq_true, Bool.and_eq_true] at h
          have hk : k1 = k2 := by
            have := h.1.1; simpa using this
          have hv := H (k1, v1) (by simp) v2 h.1.2
          have hxs := ih ys (fun z hz => H z (List.mem_cons_of_mem (k1, v1) hz)) h.2
          simp only at hv
          rw [hk, hv, hxs]

theorem jeqb_sound : (a b : Json) → jeqb a b = true → a = b
  | .null, b, h => by cases b <;> simp_all [jeqb]
  | .bool x, b, h => by cases b <;> simp_all [jeqb]
  | .num x, b, h => by cases b <;> simp_all [jeqb]
  | .str x, b, h => by cases b <;> simp_all [jeqb]
  | .arr xs, b, h => by
    cases b <;> try simp_all [jeqb]
    case arr ys =>
      have H : ∀ x ∈ xs, ∀ y : Json, jeqb x y = true → x = y :=
        fun x hx y hxy => jeqb_sound x y hxy
      rw [jeqbList_sound_of xs ys H (by simpa [jeqb] using h)]
  | .obj kvs, b, h => by
    cases b <;> try simp_all [jeqb]
    case obj kvs2 =>
      have H : ∀ kv ∈ kvs, ∀ y : Json, jeqb kv.2 y = true → kv.2 = y :=
        fun kv hkv y hxy => jeqb_sound kv.2 y hxy
      rw [jeqbKvs_sound_of kvs kvs2 H (by simpa [jeqb] using h)]
termination_by a _ => sizeOf a
decreasing_by
  · exact sizeOf_lt_of_mem_arr hx
  · exact sizeOf_snd_lt_of_mem_obj hkv

theorem jeqbList_refl_of (xs : List Json) (H : ∀ x ∈ xs, jeqb x x = true) :
    jeqbList xs xs = true := by
  induction xs with
  | nil => simp [jeqbList]
  | cons x xs ih =>
    rw [jeqbList, Bool.and_eq_true]
    exact ⟨H x (by simp), ih fun z hz => H z (by simp [hz])⟩

theorem jeqbKvs_refl_of (xs : List (String × Json)) (H : ∀ kv ∈ xs, jeqb kv.2 kv.2 = true) :
    jeqbKvs xs xs = true := by
  induction xs with
  | nil => simp [jeqbKvs]
  | cons x xs ih =>
    cases x with
    | mk k v =>
      rw [jeqbKvs, Bool.and_eq_true, Bool.and_eq_true]
      exact ⟨⟨by simp, H (k, v) (by simp)⟩, ih fun z hz => H z (by simp [hz])⟩

theorem jeqb_refl : (a : Json) → jeqb a a = true
  | .null => rfl
  | .bool x => by simp [jeqb]
  | .num x => by simp [jeqb]
  | .str x => by simp [jeqb]
  | .arr xs => by
    rw [jeqb]
    exact jeqbList_refl_of xs fun x hx => jeqb_refl x
  | .obj kvs => by
    rw [jeqb]
    exact jeqbKvs_refl_of kvs fun kv hkv => jeqb_refl kv.2
termination_by a => sizeOf a
decreasing_by
  · exact sizeOf_lt_of_mem_arr hx
  · exact sizeOf_snd_lt_of_mem_obj hkv

instance instDecEqJson : DecidableEq Json := fun a b =>
  if h : jeqb a b = true then isTrue (jeqb_sound a b h)
  else isFalse fun he => h (he ▸ jeqb_refl a)

instance instDecEqExceptOf {ε α : Type} [DecidableEq ε] [DecidableEq α] :
    DecidableEq (Except ε α) := fun x y =>
  match x, y with
  | .ok a, .ok b => if h : a = b then isTrue (by rw [h]) else isFalse (by simp [h])
  | .error a, .error b => if h : a = b then isTrue (by rw [h]) else isFalse (by simp [h])
  | .ok _, .error _ => isFalse (by simp)
  | .error _, .ok _ => isFalse (by simp)

/-- JavaScript truthiness of a JSON value: null/undefined, false, 0 and the
empty string are falsy; arrays and objects (even empty ones) are truthy. -/
def truthy : Json → Bool
  | .null => false
  | .bool b => b
  | .num n => n != 0
  | .str s => s != ""
  | .arr _ => true
  | .obj _ => true

/-- Truthiness of a possibly-undefined value (undefined is falsy). -/
def otruthy : Option Json → Bool
  | none => false
  | some j => truthy j

theorem truthy_obj (kvs : List (String × Json)) : truthy (Json.obj kvs) = true := rfl

theorem truthy_arr (xs : List Json) : truthy (Json.arr xs) = true := rfl

/-- Decimal digit character. -/
def digitChar : Nat → Char
  | 0 => '0' | 1 => '1' | 2 => '2' | 3 => '3' | 4 => '4'
  | 5 => '5' | 6 => '6' | 7 => '7' | 8 => '8' | 9 => '9'
  | _ => '*'

/-- Character list of the canonical decimal numeral of a natural number,
most significant digit first, no leading zeros (zero itself is "0").  This
is the string JavaScript produces for an array index. -/
def decChars (n : Nat) : List Char :=
  if _h : n < 10 then [digitChar n]
  else decChars (n / 10) ++ [digitChar (n % 10)]
decreasing_by
  exact Nat.div_lt_self (by omega) (by omega)

/-- Canonical decimal numeral of a natural number as a string. -/
def decRepr (n : Nat) : String := String.mk (decChars n)

theorem digitChar_inj {a b : Nat} (ha : a < 10) (hb : b < 10)
    (h : digitChar a = digitChar b) : a = b := by
  interval_cases a <;> interval_cases b <;> simp_all [digitChar]

theorem decChars_lt {n : Nat} (h : n < 10) : decChars n = [digitChar n] := by
  rw [decChars]; exact dif_pos h

theorem decChars_ge {n : Nat} (h : ¬ n < 10) :
    decChars n = decChars (n / 10) ++ [digitChar (n % 10)] := by
  rw [decChars]; exact dif_neg h

theorem decChars_ne_nil (n : Nat) : decChars n ≠ [] := by
  by_cases h : n < 10
  · rw [decChars_lt h]; simp
  · rw [decChars_ge h]; simp

theorem decChars_inj : ∀ a b : Nat, decChars a = decChars b → a = b := by
  intro a
  induction a using Nat.strong_induction_on with
  | _ a ih =>
    intro b h
    by_cases ha : a < 10
    · by_cases hb : b < 10
      · rw [decChars_lt ha, decChars_lt hb] at h
        exact digitChar_inj ha hb (List.cons.injEq _ _ _ _ ▸ h).1
      · rw [decChars_lt ha, decChars_ge hb] at h
        have hlen := congrArg List.length h
        simp only [List.length_cons, List.length_nil, List.length_append] at hlen
        have hz : (decChars (b / 10)).length = 0 := by omega
        exact absurd (List.length_eq_zero.mp hz) (decChars_ne_nil _)
    · by_cases hb : b < 10
      · rw [decChars_ge ha, decChars_lt hb] at h
        have hlen := congrArg List.length h
        simp only [List.length_cons, List.length_nil, List.length_append] at hlen
        have hz : (decChars (a / 10)).length = 0 := by omega
        exact absurd (List.length_eq_zero.mp hz) (decChars_ne_nil _)
      · rw [decChars_ge ha, decChars_ge hb] at h
        have hrev := congrArg List.reverse h
        simp only [List.reverse_append, List.reverse_cons, List.reverse_nil,
          List.nil_append, List.singleton_append, List.cons.injEq] at hrev
        have hmod : a % 10 = b % 10 :=
          digitChar_inj (Nat.mod_lt _ (by omega)) (Nat.mod_lt _ (by omega)) hrev.1
        have hdiv : a / 10 = b / 10 := by
          have h2 := congrArg List.reverse hrev.2
          simp only [List.reverse_reverse] at h2
          exact ih (a / 10) (Nat.div_lt_self (by omega) (by omega)) (b / 10) h2
        omega

theorem decRepr_inj {a b : Nat} (h : decRepr a = decRepr b) : a = b :=
  decChars_inj a b (congrArg String.data h)

/-- Linear search for the index whose canonical numeral is the given token,
scanning start, start+1, ..., start+fuel-1. -/
def arrIdxAux (t : String) : Nat → Nat → Option Nat
  | _, 0 => none
  | start, fuel + 1 =>
    if decRepr start = t then some start else arrIdxAux t (start + 1) fuel

/-- The in-range canonical array index denoted by a token, if any: some i
with i < bound iff the token is the canonical decimal numeral of i.  A
JavaScript array of length n has exactly the own keys 0 ... n-1 in their
canonical decimal form (the token 01 is a plain property, never an index). -/
def arrIdx (bound : Nat) (t : String) : Option Nat := arrIdxAux t 0 bound

theorem arrIdxAux_repr : ∀ (fuel start i : Nat), start ≤ i → i < start + fuel →
    arrIdxAux (decRepr i) start fuel = some i := by
  intro fuel
  induction fuel with
  | zero => intro start i h1 h2; omega
  | succ fuel ih =>
    intro start i h1 h2
    rw [arrIdxAux]
    by_cases he : start = i
    · rw [if_pos (by rw [he])]
      rw [he]
    · rw [if_neg fun hc => he (decRepr_inj hc)]
      exact ih (start + 1) i (by omega) (by omega)

theorem arrIdxAux_some : ∀ (fuel start i : Nat) (t : String),
    arrIdxAux t start fuel = some i → t = decRepr i ∧ start ≤ i ∧ i < start + fuel := by
  intro fuel
  induction fuel with
  | zero => intro start i t h; exact absurd h (by simp [arrIdxAux])
  | succ fuel ih =>
    intro start i t h
    rw [arrIdxAux] at h
    by_cases hc : decRepr start = t
    · rw [if_pos hc] at h
      cases h
      exact ⟨hc.symm, Nat.le_refl _, by omega⟩
    · rw [if_neg hc] at h
      have := ih (start + 1) i t h
      exact ⟨this.1, by omega, by omega⟩

theorem arrIdx_repr {bound i : Nat} (h : i < bound) :
    arrIdx bound (decRepr i) = some i :=
  arrIdxAux_repr bound 0 i (by omega) (by omega)

theorem arrIdx_some {bound i : Nat} {t : String} (h : arrIdx bound t = some i) :
    t = decRepr i ∧ i < bound := by
  have := arrIdxAux_some bound 0 i t h
  exact ⟨this.1, by omega⟩

/-- First value bound to a key in an association list (a JavaScript object
holds each key once, so on well-formed values this is the only binding). -/
def jLook : List (String × Json) → String → Option Json
  | [], _ => none
  | (k, v) :: rest, t => if k = t then some v else jLook rest t

/-- Property read j[t] on a non-null value, as JavaScript resolves own data
properties: a key of an object, a canonical in-range index of an array, and
undefined (none) everywhere else.  Prototype-chain properties (toString,
length, ...) are outside the JSON data model and are not modelled. -/
def child : Json → String → Option Json
  | .obj kvs, t => jLook kvs t
  | .arr xs, t =>
    match arrIdx xs.length t with
    | some i => xs.get? i
    | none => none
  | _, _ => none

/-- Property read with the JS convention that a missing property is
undefined, modelled as Json.null. -/
def childD (j : Json) (t : String) : Json := (child j t).getD Json.null

/-- Property access j.t that can throw: reading a property of null or
undefined is a TypeError in JavaScript. -/
def propAccess (j : Json) (t : String) : Except Unit (Option Json) :=
  match j with
  | .null => .error ()
  | _ => .ok (child j t)

mutual

/-- Recursive well-formedness: every object in the tree has pairwise
distinct keys.  Every value that can exist in a JavaScript runtime
satisfies this; the inductive type above also contains junk that cannot. -/
def wfB : Json → Bool
  | .null | .bool _ | .num _ | .str _ => true
  | .arr xs => wfBList xs
  | .obj kvs => decide ((kvs.map Prod.fst).Nodup) && wfBKvs kvs

/-- Well-formedness of every element of a JSON array. -/
def wfBList : List Json → Bool
  | [] => true
  | x :: xs => wfB x && wfBList xs

/-- Well-formedness of every value of a JSON object entry list. -/
def wfBKvs : List (String × Json) → Bool
  | [] => true
  | (_, v) :: rest => wfB v && wfBKvs rest

end

end Json

open Json

/-! JSON Pointer encoding: a model of the json-pointer npm package
(escape, unescape, parse, compile), which src/index.js uses for all path
handling. -/

/-- Escape step of json-pointer compile: tilde becomes tilde-0, slash
becomes tilde-1.  The library performs two sequential global regex
replaces; since the first introduces no slash, they are equivalent to this
single left-to-right pass. -/
def escapeChars : List Char → List Char
  | [] => []
  | c :: rest =>
    if c = '~' then '~' :: '0' :: escapeChars rest
    else if c = '/' then '~' :: '1' :: escapeChars rest
    else c :: escapeChars rest

/-- Unescape step of json-pointer parse: tilde-1 becomes slash, tilde-0
becomes tilde.  On images of escapeChars (the only strings the source ever
parses back) this left-to-right pass agrees with the two sequential regex
replaces of the library. -/
def unescapeChars : List Char → List Char
  | [] => []
  | [c] => [c]
  | c1 :: c2 :: rest =>
    if c1 = '~' ∧ c2 = '0' then '~' :: unescapeChars rest
    else if c1 = '~' ∧ c2 = '1' then '/' :: unescapeChars rest
    else c1 :: unescapeChars (c2 :: rest)

theorem unescapeChars_cons_of_ne (c : Char) (l : List Char) (h : c ≠ '~') :
    unescapeChars (c :: l) = c :: unescapeChars l := by
  cases l with
  | nil => rfl
  | cons d rest =>
    rw [unescapeChars]
    simp [h]

theorem unescape_escape (cs : List Char) : unescapeChars (escapeChars cs) = cs := by
  induction cs with
  | nil => rfl
  | cons c rest ih =>
    by_cases h1 : c = '~'
    · subst h1
      rw [escapeChars, if_pos rfl, unescapeChars]
      simp [ih]
    · by_cases h2 : c = '/'
      · subst h2
        rw [escapeChars, if_neg (by decide), if_pos rfl, unescapeChars]
        simp [ih]
      · rw [escapeChars, if_neg h1, if_neg h2, unescapeChars_cons_of_ne c _ h1, ih]

theorem escape_no_slash (cs : List Char) : '/' ∉ escapeChars cs := by
  induction cs with
  | nil => simp [escapeChars]
  | cons c rest ih =>
    rw [escapeChars]
    by_cases h1 : c = '~'
    · rw [if_pos h1]
      intro hm
      rcases List.mem_cons.mp hm with h | hm2
      · exact absurd h (by decide)
      rcases List.mem_cons.mp hm2 with h | hm3
      · exact absurd h (by decide)
      · exact ih hm3
    · by_cases h2 : c = '/'
      · rw [if_neg h1, if_pos h2]
        intro hm
        rcases List.mem_cons.mp hm with h | hm2
        · exact absurd h (by decide)
        rcases List.mem_cons.mp hm2 with h | hm3
        · exact absurd h (by decide)
        · exact ih hm3
      · rw [if_neg h1, if_neg h2]
        intro hm
        rcases List.mem_cons.mp hm with h | hm2
        · exact h2 h.symm
        · exact ih hm2

/-- Model of the String.prototype.split behavior on the slash separator:
all pieces are kept, including empty ones at either end. -/
def splitSlash : List Char → List (List Char)
  | [] => [[]]
  | c :: rest =>
    if c = '/' then [] :: splitSlash rest
    else
      match splitSlash rest with
      | piece :: more => (c :: piece) :: more
      | [] => [[c]]

theorem splitSlash_no_slash (l : List Char) (h : '/' ∉ l) : splitSlash l = [l] := by
  induction l with
  | nil => rfl
  | cons c rest ih =>
    have hc : c ≠ '/' := fun he => h (he ▸ List.mem_cons_self c rest)
    have hrest : '/' ∉ rest := fun hm => h (List.mem_cons_of_mem c hm)
    rw [splitSlash, if_neg hc, ih hrest]

theorem splitSlash_append (a b : List Char) (h : '/' ∉ a) :
    splitSlash (a ++ '/' :: b) = a :: splitSlash b := by
  induction a with
  | nil => simp [splitSlash]
  | cons c rest ih =>
    have hc : c ≠ '/' := fun he => h (he ▸ List.mem_cons_self c rest)
    have hrest : '/' ∉ rest := fun hm => h (List.mem_cons_of_mem c hm)
    rw [List.cons_append, splitSlash, if_neg hc, ih hrest]

/-- Model of json-pointer compile on character lists: the empty token list
gives the empty string, otherwise a slash before each escaped token. -/
def compileChars : List (List Char) → List Char
  | [] => []
  | t :: rest => '/' :: (escapeChars t ++ compileChars rest)

/-- Model of json-pointer parse on character lists: the empty string gives
the empty token list; a string starting with a slash is split on slashes
and unescaped; anything else makes the library throw (none). -/
def parseChars : List Char → Option (List (List Char))
  | [] => some []
  | '/' :: rest => some ((splitSlash rest).map unescapeChars)
  | _ => none

theorem splitSlash_compile (toks : List (List Char)) (t : List Char) :
    splitSlash (escapeChars t ++ compileChars toks) =
      escapeChars t :: toks.map escapeChars := by
  induction toks generalizing t with
  | nil =>
    rw [compileChars, List.append_nil, splitSlash_no_slash _ (escape_no_slash t)]
    rfl
  | cons u rest ih =>
    rw [compileChars, splitSlash_append _ _ (escape_no_slash t), ih u]
    rfl

theorem parse_compile_chars (toks : List (List Char)) :
    parseChars (compileChars toks) = some toks := by
  cases toks with
  | nil => rfl
  | cons t rest =>
    rw [compileChars, parseChars, splitSlash_compile]
    simp [Function.comp_def, unescape_escape]

/-- Model of json-pointer compile on strings, as the source calls it. -/
def compilePtr (toks : List String) : String :=
  String.mk (compileChars (toks.map String.toList))

/-- Model of json-pointer parse on strings; none models the throw on a
nonempty string that does not start with a slash. -/
def parsePtrQ (s : String) : Option (List String) :=
  (parseChars s.toList).map (List.map String.mk)

/-- Total version of parse used where the source only ever feeds back
strings it compiled itself (the walker), on which the default is never
taken. -/
def parsePtrD (s : String) : List String := (parsePtrQ s).getD []

theorem strMk_toList (s : String) : String.mk s.toList = s := rfl

theorem parse_compile (toks : List String) : parsePtrQ (compilePtr toks) = some toks := by
  unfold parsePtrQ compilePtr
  rw [show (String.mk (compileChars (toks.map String.toList))).toList
        = compileChars (toks.map String.toList) from rfl]
  rw [parse_compile_chars]
  simp [Function.comp_def, strMk_toList]

theorem parseD_compile (toks : List String) : parsePtrD (compilePtr toks) = toks := by
  rw [parsePtrD, parse_compile]; rfl

theorem compilePtr_injective : Function.Injective compilePtr := by
  intro a b h
  have ha := parse_compile a
  rw [h, parse_compile b] at ha
  exact (Option.some.injEq _ _ ▸ ha).symm

/-- Resolution of a token list against a value, one Json.child step per
token.  This is the loop of json-pointer get: at each token the library
throws unless the current value is an object carrying that key or an array
carrying that index (none models the throw). -/
def getToks : Json → List String → Option Json
  | j, [] => some j
  | j, t :: ts => (Json.child j t).bind (getToks · ts)

/-- Model of jsonpointer.get(obj, pointer) with a string pointer, as the
source calls it: parse then resolve; error models a throw (malformed
pointer or missing reference token). -/
def getPtr (j : Json) (p : String) : Except Unit Json :=
  match parsePtrQ p with
  | none => .error ()
  | some toks =>
    match getToks j toks with
    | none => .error ()
    | some v => .ok v

/-! The mask-path walker findAllMaskPathsInResource (src/index.js lines
62 to 77).  Two remarks on fidelity:

* the two early returns of the source (falsy value, value not of type
  object) together say exactly: any value that is not an array and not an
  object contributes no paths, since arrays and objects are always truthy;
* the source iterates the lodash keys of the current object and reads each
  key back; a JavaScript object binds every key once, so iterating its
  entry list is the same walk.  On a lodash-keyed ARRAY the keys are the
  decimal index strings, which is the indexed walk below. -/

mutual

/-- The inner recursion of findAllMaskPathsInResource: if the current
object has a truthy trellis-mask property the current path is returned and
the walk does not descend (masks are leaves); otherwise the walk recurses
into every entry, extending the pointer through parse and compile exactly
as the source does. -/
def recursiveFindMaskPaths (curobj : Json) (curpath : String) : List String :=
  match curobj with
  | .obj kvs =>
    if otruthy (jLook kvs "trellis-mask") then [curpath]
    else findPathsKvs kvs curpath
  | .arr xs => findPathsArr xs 0 curpath
  | _ => []

/-- Walk of the entries of an object, in insertion order. -/
def findPathsKvs : List (String × Json) → String → List String
  | [], _ => []
  | (k, v) :: rest, curpath =>
    recursiveFindMaskPaths v (compilePtr (parsePtrD curpath ++ [k])) ++ findPathsKvs rest curpath

/-- Walk of the elements of an array, keyed by decimal index strings. -/
def findPathsArr : List Json → Nat → String → List String
  | [], _, _ => []
  | x :: rest, i, curpath =>
    recursiveFindMaskPaths x (compilePtr (parsePtrD curpath ++ [decRepr i])) ++
      findPathsArr rest (i + 1) curpath

end

/-- The exported walker: depth-first over the tree, starting from the empty
pointer (src/index.js line 76). -/
def findAllMaskPathsInResource (resource : Json) : List String :=
  recursiveFindMaskPaths resource ""

mutual

/-- Component-level mirror of the walker: same traversal, but paths are
token lists instead of compiled pointer strings.  Used only inside proofs;
the relation to the source walker is walker_rel below. -/
def maskComponentPaths : Json → List (List String)
  | .obj kvs =>
    if otruthy (jLook kvs "trellis-mask") then [[]]
    else maskPathsKvs kvs
  | .arr xs => maskPathsArr xs 0
  | _ => []

/-- Component-level walk of object entries. -/
def maskPathsKvs : List (String × Json) → List (List String)
  | [] => []
  | (k, v) :: rest => (maskComponentPaths v).map (k :: ·) ++ maskPathsKvs rest

/-- Component-level walk of array elements. -/
def maskPathsArr : List Json → Nat → List (List String)
  | [], _ => []
  | x :: rest, i => (maskComponentPaths x).map (decRepr i :: ·) ++ maskPathsArr rest (i + 1)

end

theorem findPathsKvs_rel (kvs : List (String × Json)) (pref : List String)
    (H : ∀ kv ∈ kvs, ∀ pref2 : List String,
      recursiveFindMaskPaths kv.2 (compilePtr pref2) =
        (maskComponentPaths kv.2).map fun c => compilePtr (pref2 ++ c)) :
    findPathsKvs kvs (compilePtr pref) =
      (maskPathsKvs kvs).map fun c => compilePtr (pref ++ c) := by
  induction kvs with
  | nil => rfl
  | cons kv rest ih =>
    cases kv with
    | mk k v =>
      rw [findPathsKvs, maskPathsKvs, parseD_compile,
        H (k, v) (by simp) (pref ++ [k]),
        ih fun z hz => H z (List.mem_cons_of_mem (k, v) hz)]
      simp [List.map_map, Function.comp_def, List.append_assoc]

theorem findPathsArr_rel (xs : List Json) (i : Nat) (pref : List String)
    (H : ∀ x ∈ xs, ∀ pref2 : List String,
      recursiveFindMaskPaths x (compilePtr pref2) =
        (maskComponentPaths x).map fun c => compilePtr (pref2 ++ c)) :
    findPathsArr xs i (compilePtr pref) =
      (maskPathsArr xs i).map fun c => compilePtr (pref ++ c) := by
  induction xs generalizing i with
  | nil => rfl
  | cons x rest ih =>
    rw [findPathsArr, maskPathsArr, parseD_compile,
      H x (by simp) (pref ++ [decRepr i]),
      ih (i + 1) fun z hz => H z (List.mem_cons_of_mem x hz)]
    simp [List.map_map, Function.comp_def, List.append_assoc]

/-- The source walker on a compiled pointer prefix returns exactly the
component-level paths, each appended to the prefix and compiled. -/
theorem walker_rel : (j : Json) → ∀ pref : List String,
    recursiveFindMaskPaths j (compilePtr pref) =
      (maskComponentPaths j).map fun c => compilePtr (pref ++ c)
  | .obj kvs, pref => by
    rw [recursiveFindMaskPaths, maskComponentPaths]
    by_cases h : otruthy (jLook kvs "trellis-mask")
    · simp [h]
    · rw [if_neg h, if_neg h]
      exact findPathsKvs_rel kvs pref fun kv hkv pref2 => walker_rel kv.2 pref2
  | .arr xs, pref => by
    rw [recursiveFindMaskPaths, maskComponentPaths]
    exact findPathsArr_rel xs 0 pref fun x hx pref2 => walker_rel x pref2
  | .null, _ => rfl
  | .bool _, _ => rfl
  | .num _, _ => rfl
  | .str _, _ => rfl
termination_by j => sizeOf j
decreasing_by
  · exact Json.sizeOf_snd_lt_of_mem_obj hkv
  · exact Json.sizeOf_lt_of_mem_arr hx

/-- The exported walker is the component walker, compiled. -/
theorem findAll_eq_compile (r : Json) :
    findAllMaskPathsInResource r = (maskComponentPaths r).map compilePtr := by
  have h : findAllMaskPathsInResource r = recursiveFindMaskPaths r (compilePtr []) := rfl
  rw [h, walker_rel r []]
  simp

/-! Supporting lemmas about lookup, well-formedness, pointer leads, and
the trellis-mask test, used by the walker invariants and by the
maskResource superset theorem. -/

theorem jLook_mem : ∀ (kvs : List (String × Json)) (t : String) (c : Json),
    jLook kvs t = some c → (t, c) ∈ kvs := by
  intro kvs
  induction kvs with
  | nil => intro t c h; exact absurd h (by simp [jLook])
  | cons kv rest ih =>
    intro t c h
    cases kv with
    | mk k v =>
      rw [jLook] at h
      by_cases he : k = t
      · rw [if_pos he] at h
        cases h
        subst he
        exact List.mem_cons_self _ _
      · rw [if_neg he] at h
        exact List.mem_cons_of_mem _ (ih t c h)

theorem jLook_of_nodup : ∀ (kvs : List (String × Json)) (k : String) (v : Json),
    (kvs.map Prod.fst).Nodup → (k, v) ∈ kvs → jLook kvs k = some v := by
  intro kvs
  induction kvs with
  | nil => intro k v _ h; exact absurd h (by simp)
  | cons kv rest ih =>
    intro k v hnd hm
    cases kv with
    | mk k1 v1 =>
      rw [List.map_cons, List.nodup_cons] at hnd
      rcases List.mem_cons.mp hm with he | hm2
      · cases he
        rw [jLook, if_pos rfl]
      · have hk : k1 ≠ k := by
          intro he2
          exact hnd.1 (he2 ▸ List.mem_map.mpr ⟨(k, v), hm2, rfl⟩)
        rw [jLook, if_neg hk]
        exact ih k v hnd.2 hm2

theorem wfBList_mem {xs : List Json} {x : Json} (h : wfBList xs = true) (hm : x ∈ xs) :
    wfB x = true := by
  induction xs with
  | nil => exact absurd hm (by simp)
  | cons y rest ih =>
    rw [wfBList, Bool.and_eq_true] at h
    rcases List.mem_cons.mp hm with he | hm2
    · exact he ▸ h.1
    · exact ih h.2 hm2

theorem wfBKvs_mem {kvs : List (String × Json)} {kv : String × Json}
    (h : wfBKvs kvs = true) (hm : kv ∈ kvs) : wfB kv.2 = true := by
  induction kvs with
  | nil => exact absurd hm (by simp)
  | cons y rest ih =>
    cases y with
    | mk k1 v1 =>
      rw [wfBKvs, Bool.and_eq_true] at h
      rcases List.mem_cons.mp hm with he | hm2
      · rw [he]
        exact h.1
      · exact ih h.2 hm2

theorem wfB_obj {kvs : List (String × Json)} (h : wfB (Json.obj kvs) = true) :
    (kvs.map Prod.fst).Nodup ∧ ∀ kv ∈ kvs, wfB kv.2 = true := by
  rw [wfB, Bool.and_eq_true] at h
  exact ⟨by simpa using h.1, fun kv hm => wfBKvs_mem h.2 hm⟩

theorem wfB_arr {xs : List Json} (h : wfB (Json.arr xs) = true) :
    ∀ x ∈ xs, wfB x = true := by
  rw [wfB] at h
  exact fun x hm => wfBList_mem h hm

/-- Lead test on token lists: leadB a b is true when a is an initial
segment of b (the component-level meaning of one JSON pointer lying on the
way to another). -/
def leadB : List String → List String → Bool
  | [], _ => true
  | _ :: _, [] => false
  | x :: a, y :: b => x == y && leadB a b

theorem leadB_nil_right {a : List String} (h : leadB a [] = true) : a = [] := by
  cases a with
  | nil => rfl
  | cons x rest => exact absurd h (by simp [leadB])

theorem leadB_cons {x y : String} {a b : List String} :
    leadB (x :: a) (y :: b) = true ↔ x = y ∧ leadB a b = true := by
  rw [leadB, Bool.and_eq_true]
  simp

theorem leadB_refl : ∀ a : List String, leadB a a = true := by
  intro a
  induction a with
  | nil => rfl
  | cons x rest ih => rw [leadB_cons]; exact ⟨rfl, ih⟩

theorem leadB_trans : ∀ {a b c : List String},
    leadB a b = true → leadB b c = true → leadB a c = true := by
  intro a
  induction a with
  | nil => intro b c _ _; rfl
  | cons x rest ih =>
    intro b c hab hbc
    cases b with
    | nil => exact absurd hab (by simp [leadB])
    | cons y brest =>
      cases c with
      | nil => exact absurd hbc (by simp [leadB])
      | cons z crest =>
        rw [leadB_cons] at hab hbc ⊢
        exact ⟨hab.1.trans hbc.1, ih hab.2 hbc.2⟩

theorem leadB_append (a c : List String) : leadB a (a ++ c) = true := by
  induction a with
  | nil => rfl
  | cons x rest ih => rw [List.cons_append, leadB_cons]; exact ⟨rfl, ih⟩

theorem leadB_iff_append {a b : List String} :
    leadB a b = true ↔ ∃ c, b = a ++ c := by
  constructor
  · intro h
    induction a generalizing b with
    | nil => exact ⟨b, rfl⟩
    | cons x rest ih =>
      cases b with
      | nil => exact absurd h (by simp [leadB])
      | cons y brest =>
        rw [leadB_cons] at h
        rcases ih h.2 with ⟨c, hc⟩
        exact ⟨c, by rw [hc, h.1, List.cons_append]⟩
  · rintro ⟨c, rfl⟩
    exact leadB_append a c

/-- The walker termination test of the source: does the current value have
a truthy trellis-mask property. -/
def tmTruthy (j : Json) : Bool := otruthy (Json.child j "trellis-mask")

theorem decRepr_head_digit : ∀ n : Nat, ∃ d t, d < 10 ∧ decChars n = digitChar d :: t := by
  intro n
  induction n using Nat.strong_induction_on with
  | _ n ih =>
    by_cases h : n < 10
    · exact ⟨n, [], h, decChars_lt h⟩
    · rcases ih (n / 10) (Nat.div_lt_self (by omega) (by omega)) with ⟨d, t, hd, ht⟩
      exact ⟨d, t ++ [digitChar (n % 10)], hd, by rw [decChars_ge h, ht]; rfl⟩

theorem decRepr_ne_tm (n : Nat) : decRepr n ≠ "trellis-mask" := by
  intro h
  rcases decRepr_head_digit n with ⟨d, t, hd, ht⟩
  have hdata : decChars n = "trellis-mask".data := congrArg String.data h
  rw [ht] at hdata
  have hhead : digitChar d = 't' := by
    have : "trellis-mask".data = 't' :: "rellis-mask".data := rfl
    rw [this] at hdata
    exact (List.cons.injEq _ _ _ _ ▸ hdata).1
  interval_cases d <;> simp [digitChar] at hhead

theorem child_arr_tm (xs : List Json) : Json.child (Json.arr xs) "trellis-mask" = none := by
  rw [Json.child]
  cases harr : arrIdx xs.length "trellis-mask" with
  | none => rfl
  | some i => exact absurd (arrIdx_some harr).1.symm (decRepr_ne_tm i)

theorem child_arr_of_nondigit_head (xs : List Json) (t : String)
    (h : ∀ d, d < 10 → t.data.head? ≠ some (digitChar d)) :
    Json.child (Json.arr xs) t = none := by
  rw [Json.child]
  cases harr : arrIdx xs.length t with
  | none => rfl
  | some i =>
    rcases arrIdx_some harr with ⟨hrepr, _⟩
    rcases decRepr_head_digit i with ⟨d, tail, hd, ht⟩
    have hdata : t.data = digitChar d :: tail := by
      rw [hrepr]
      exact ht
    exact absurd (by rw [hdata]; rfl) (h d hd)

theorem tmTruthy_arr (xs : List Json) : tmTruthy (Json.arr xs) = false := by
  rw [tmTruthy, child_arr_tm]; rfl

theorem child_arr_repr {xs : List Json} {d : Nat} (hd : d < xs.length) :
    Json.child (Json.arr xs) (decRepr d) = xs.get? d := by
  rw [Json.child, arrIdx_repr hd]

theorem tmTruthy_not_obj : ∀ {j : Json}, tmTruthy j = true → ∃ kvs, j = Json.obj kvs := by
  intro j h
  cases j with
  | obj kvs => exact ⟨kvs, rfl⟩
  | arr xs => rw [tmTruthy_arr] at h; exact absurd h (by simp)
  | null => exact absurd h (by simp [tmTruthy, Json.child, otruthy])
  | bool b => exact absurd h (by simp [tmTruthy, Json.child, otruthy])
  | num n => exact absurd h (by simp [tmTruthy, Json.child, otruthy])
  | str s => exact absurd h (by simp [tmTruthy, Json.child, otruthy])

/-! Walker invariants: every component path returned by the walker resolves
to a value with a truthy trellis-mask, every proper lead of it resolves to
a value without one, the returned list has no duplicates on well-formed
input, and conversely every suitable path is returned. -/

theorem maskPathsKvs_mem : ∀ (kvs : List (String × Json)) (c : List String),
    c ∈ maskPathsKvs kvs →
    ∃ k v c', (k, v) ∈ kvs ∧ c' ∈ maskComponentPaths v ∧ c = k :: c' := by
  intro kvs
  induction kvs with
  | nil => intro c h; exact absurd h (by simp [maskPathsKvs])
  | cons kv rest ih =>
    intro c h
    cases kv with
    | mk k v =>
      rw [maskPathsKvs] at h
      rcases List.mem_append.mp h with hl | hr
      · rcases List.mem_map.mp hl with ⟨c', hc', rfl⟩
        exact ⟨k, v, c', List.mem_cons_self _ _, hc', rfl⟩
      · rcases ih c hr with ⟨k2, v2, c', hm, hc', rfl⟩
        exact ⟨k2, v2, c', List.mem_cons_of_mem _ hm, hc', rfl⟩

theorem maskPathsArr_mem : ∀ (xs : List Json) (i : Nat) (c : List String),
    c ∈ maskPathsArr xs i →
    ∃ d x c', xs.get? d = some x ∧ c' ∈ maskComponentPaths x ∧ c = decRepr (i + d) :: c' := by
  intro xs
  induction xs with
  | nil => intro i c h; exact absurd h (by simp [maskPathsArr])
  | cons x rest ih =>
    intro i c h
    rw [maskPathsArr] at h
    rcases List.mem_append.mp h with hl | hr
    · rcases List.mem_map.mp hl with ⟨c', hc', rfl⟩
      exact ⟨0, x, c', rfl, hc', by rw [Nat.add_zero]⟩
    · rcases ih (i + 1) c hr with ⟨d, x2, c', hg, hc', rfl⟩
      exact ⟨d + 1, x2, c', by simpa using hg, hc', by rw [show i + (d + 1) = i + 1 + d by omega]⟩

theorem maskPathsKvs_mem_intro : ∀ (kvs : List (String × Json)) (k : String) (v : Json)
    (c' : List String), (k, v) ∈ kvs → c' ∈ maskComponentPaths v →
    k :: c' ∈ maskPathsKvs kvs := by
  intro kvs
  induction kvs with
  | nil => intro k v c' hm; exact absurd hm (by simp)
  | cons kv rest ih =>
    intro k v c' hm hc
    cases kv with
    | mk k1 v1 =>
      rw [maskPathsKvs]
      rcases List.mem_cons.mp hm with he | hm2
      · rw [Prod.mk.injEq] at he
        rcases he with ⟨hek, hev⟩
        subst hek
        subst hev
        exact List.mem_append.mpr (Or.inl (List.mem_map.mpr ⟨c', hc, rfl⟩))
      · exact List.mem_append.mpr (Or.inr (ih k v c' hm2 hc))

theorem maskPathsArr_mem_intro : ∀ (xs : List Json) (i d : Nat) (x : Json)
    (c' : List String), xs.get? d = some x → c' ∈ maskComponentPaths x →
    decRepr (i + d) :: c' ∈ maskPathsArr xs i := by
  intro xs
  induction xs with
  | nil => intro i d x c' hg; exact absurd hg (by simp)
  | cons y rest ih =>
    intro i d x c' hg hc
    rw [maskPathsArr]
    cases d with
    | zero =>
      rw [List.get?] at hg
      cases hg
      exact List.mem_append.mpr (Or.inl (List.mem_map.mpr ⟨c', hc, by rw [Nat.add_zero]⟩))
    | succ d2 =>
      rw [List.get?] at hg
      have := ih (i + 1) d2 x c' hg hc
      rw [show i + (d2 + 1) = i + 1 + d2 by omega]
      exact List.mem_append.mpr (Or.inr this)

/-- Soundness of the walker: on a well-formed value, every returned
component path resolves to a value with a truthy trellis-mask property,
and every proper lead of it resolves to a value without one. -/
theorem maskPaths_sound : (j : Json) → wfB j = true → ∀ c ∈ maskComponentPaths j,
    (∃ v, getToks j c = some v ∧ tmTruthy v = true) ∧
    (∀ q, leadB q c = true → q ≠ c → ∃ n, getToks j q = some n ∧ tmTruthy n = false)
  | Json.obj kvs, hwf, c, hc => by
    rw [maskComponentPaths] at hc
    by_cases htm : otruthy (jLook kvs "trellis-mask")
    · rw [if_pos htm] at hc
      have hcnil : c = [] := by simpa using hc
      subst hcnil
      refine ⟨⟨Json.obj kvs, rfl, ?_⟩, ?_⟩
      · rw [tmTruthy, Json.child]
        exact htm
      · intro q hq hne
        exact absurd (leadB_nil_right hq) hne
    · rw [if_neg htm] at hc
      rcases maskPathsKvs_mem kvs c hc with ⟨k, v, c', hm, hc', rfl⟩
      have hobj := wfB_obj hwf
      have hlook : jLook kvs k = some v := jLook_of_nodup kvs k v hobj.1 hm
      have hwfv : wfB v = true := hobj.2 (k, v) hm
      have ihv := maskPaths_sound v hwfv c' hc'
      constructor
      · rcases ihv.1 with ⟨w, hw, htw⟩
        exact ⟨w, by rw [getToks, Json.child, hlook]; exact hw, htw⟩
      · intro q hq hne
        cases q with
        | nil =>
          refine ⟨Json.obj kvs, rfl, ?_⟩
          rw [tmTruthy, Json.child]
          simpa using htm
        | cons k2 q' =>
          rw [leadB_cons] at hq
          cases hq.1
          have hne' : q' ≠ c' := fun he => hne (by rw [he])
          rcases ihv.2 q' hq.2 hne' with ⟨n, hn, htn⟩
          exact ⟨n, by rw [getToks, Json.child, hlook]; exact hn, htn⟩
  | Json.arr xs, hwf, c, hc => by
    rw [maskComponentPaths] at hc
    rcases maskPathsArr_mem xs 0 c hc with ⟨d, x, c', hg, hc', rfl⟩
    simp only [Nat.zero_add]
    have hd : d < xs.length := by
      rcases List.get?_eq_some.mp hg with ⟨h, _⟩
      exact h
    have hwfx : wfB x = true := wfB_arr hwf x (List.get?_mem hg)
    have ihx := maskPaths_sound x hwfx c' hc'
    constructor
    · rcases ihx.1 with ⟨w, hw, htw⟩
      exact ⟨w, by rw [getToks, child_arr_repr hd, hg]; exact hw, htw⟩
    · intro q hq hne
      cases q with
      | nil => exact ⟨Json.arr xs, rfl, tmTruthy_arr xs⟩
      | cons k2 q' =>
        rw [leadB_cons] at hq
        cases hq.1
        have hne' : q' ≠ c' := fun he => hne (by rw [he])
        rcases ihx.2 q' hq.2 hne' with ⟨n, hn, htn⟩
        exact ⟨n, by rw [getToks, child_arr_repr hd, hg]; exact hn, htn⟩
  | Json.null, hwf, c, hc => absurd hc (by simp [maskComponentPaths])
  | Json.bool b, hwf, c, hc => absurd hc (by simp [maskComponentPaths])
  | Json.num n, hwf, c, hc => absurd hc (by simp [maskComponentPaths])
  | Json.str s, hwf, c, hc => absurd hc (by simp [maskComponentPaths])
termination_by j => sizeOf j
decreasing_by
  · exact Json.sizeOf_snd_lt_of_mem_obj hm
  · exact Json.sizeOf_lt_of_mem_arr (List.get?_mem hg)

theorem cons_injective_tail (k : String) :
    Function.Injective (fun c : List String => k :: c) := by
  intro a b h
  exact (List.cons.injEq _ _ _ _ ▸ h).2

theorem maskPathsKvs_nodup : ∀ (kvs : List (String × Json)),
    (kvs.map Prod.fst).Nodup → (∀ kv ∈ kvs, (maskComponentPaths kv.2).Nodup) →
    (maskPathsKvs kvs).Nodup := by
  intro kvs
  induction kvs with
  | nil => intro _ _; simp [maskPathsKvs]
  | cons kv rest ih =>
    intro hnd H
    cases kv with
    | mk k v =>
      rw [maskPathsKvs]
      rw [List.map_cons, List.nodup_cons] at hnd
      apply List.Nodup.append
      · exact (H (k, v) (List.mem_cons_self _ _)).map (cons_injective_tail k)
      · exact ih hnd.2 fun z hz => H z (List.mem_cons_of_mem _ hz)
      · intro c hcl hcr
        rcases List.mem_map.mp hcl with ⟨c', _, rfl⟩
        rcases maskPathsKvs_mem rest _ hcr with ⟨k2, v2, c'', hm2, _, heq⟩
        have hk : k = k2 := (List.cons.injEq _ _ _ _ ▸ heq).1
        exact hnd.1 (hk ▸ List.mem_map.mpr ⟨(k2, v2), hm2, rfl⟩)

theorem maskPathsArr_nodup : ∀ (xs : List Json) (i : Nat),
    (∀ x ∈ xs, (maskComponentPaths x).Nodup) → (maskPathsArr xs i).Nodup := by
  intro xs
  induction xs with
  | nil => intro i _; simp [maskPathsArr]
  | cons x rest ih =>
    intro i H
    rw [maskPathsArr]
    apply List.Nodup.append
    · exact (H x (List.mem_cons_self _ _)).map (cons_injective_tail (decRepr i))
    · exact ih (i + 1) fun z hz => H z (List.mem_cons_of_mem _ hz)
    · intro c hcl hcr
      rcases List.mem_map.mp hcl with ⟨c', _, rfl⟩
      rcases maskPathsArr_mem rest (i + 1) _ hcr with ⟨d, x2, c'', _, _, heq⟩
      have hk : decRepr i = decRepr (i + 1 + d) := (List.cons.injEq _ _ _ _ ▸ heq).1
      have := decRepr_inj hk
      omega

/-- On a well-formed value the walker returns pairwise distinct component
paths. -/
theorem maskPaths_nodup : (j : Json) → wfB j = true → (maskComponentPaths j).Nodup
  | Json.obj kvs, hwf => by
    rw [maskComponentPaths]
    by_cases htm : otruthy (jLook kvs "trellis-mask")
    · rw [if_pos htm]
      simp
    · rw [if_neg htm]
      have hobj := wfB_obj hwf
      exact maskPathsKvs_nodup kvs hobj.1 fun kv hkv =>
        maskPaths_nodup kv.2 (hobj.2 kv hkv)
  | Json.arr xs, hwf => by
    rw [maskComponentPaths]
    exact maskPathsArr_nodup xs 0 fun x hx => maskPaths_nodup x (wfB_arr hwf x hx)
  | Json.null, _ => by simp [maskComponentPaths]
  | Json.bool b, _ => by simp [maskComponentPaths]
  | Json.num n, _ => by simp [maskComponentPaths]
  | Json.str s, _ => by simp [maskComponentPaths]
termination_by j => sizeOf j
decreasing_by
  · exact Json.sizeOf_snd_lt_of_mem_obj hkv
  · exact Json.sizeOf_lt_of_mem_arr hx

/-- Completeness of the walker: any component path that resolves to a
value with a truthy trellis-mask, all of whose proper leads resolve to
values without one, is returned by the walker. -/
theorem maskPaths_complete : ∀ (toks : List String) (j v : Json),
    getToks j toks = some v → tmTruthy v = true →
    (∀ q n, leadB q toks = true → q ≠ toks → getToks j q = some n → tmTruthy n = false) →
    toks ∈ maskComponentPaths j := by
  intro toks
  induction toks with
  | nil =>
    intro j v hg htm _
    rw [getToks] at hg
    cases hg
    rcases tmTruthy_not_obj htm with ⟨kvs, rfl⟩
    rw [tmTruthy, Json.child] at htm
    rw [maskComponentPaths, if_pos htm]
    simp
  | cons t rest ih =>
    intro j v hg htm H
    have hroot : tmTruthy j = false := H [] j rfl (by simp) rfl
    rw [getToks] at hg
    cases hch : Json.child j t with
    | none => rw [hch] at hg; exact absurd hg (by simp)
    | some c =>
      rw [hch] at hg
      have hg' : getToks c rest = some v := hg
      cases j with
      | obj kvs =>
        rw [maskComponentPaths]
        have htmj : otruthy (jLook kvs "trellis-mask") = false := by
          rw [tmTruthy, Json.child] at hroot
          exact hroot
        rw [if_neg (by rw [htmj]; simp)]
        rw [Json.child] at hch
        have hm := jLook_mem kvs t c hch
        have hrest : rest ∈ maskComponentPaths c := by
          apply ih c v hg' htm
          intro q n hq hne hgq
          apply H (t :: q) n (by rw [leadB_cons]; exact ⟨rfl, hq⟩)
            (fun he => hne ((List.cons.injEq _ _ _ _ ▸ he).2))
          rw [getToks, Json.child, hch]
          exact hgq
        exact maskPathsKvs_mem_intro kvs t c rest hm hrest
      | arr xs =>
        rw [maskComponentPaths]
        rw [Json.child] at hch
        cases hai : arrIdx xs.length t with
        | none => rw [hai] at hch; exact absurd hch (by simp)
        | some i =>
          rw [hai] at hch
          rcases arrIdx_some hai with ⟨hrepr, hlt⟩
          subst hrepr
          have hch2 : xs.get? i = some c := hch
          have hrest : rest ∈ maskComponentPaths c := by
            apply ih c v hg' htm
            intro q n hq hne hgq
            apply H (decRepr i :: q) n (by rw [leadB_cons]; exact ⟨rfl, hq⟩)
              (fun he => hne ((List.cons.injEq _ _ _ _ ▸ he).2))
            rw [getToks, child_arr_repr hlt, hch2]
            exact hgq
          have hmem := maskPathsArr_mem_intro xs 0 i c rest hch2 hrest
          simpa using hmem
      | null => exact absurd hch (by simp [Json.child])
      | bool b => exact absurd hch (by simp [Json.child])
      | num n => exact absurd hch (by simp [Json.child])
      | str s => exact absurd hch (by simp [Json.child])

/-! Canonical form and deep equality: a model of lodash isEqual restricted
to JSON data.  Lodash compares objects by their own enumerable keys
irrespective of order; canonicalizing by sorting object keys and comparing
structurally gives exactly that relation on well-formed values. -/

/-- Insert one entry into a key-sorted entry list. -/
def insKv (kv : String × Json) : List (String × Json) → List (String × Json)
  | [] => [kv]
  | kv2 :: rest => if kv.1 ≤ kv2.1 then kv :: kv2 :: rest else kv2 :: insKv kv rest

/-- Insertion sort of object entries by key. -/
def sortKvs : List (String × Json) → List (String × Json)
  | [] => []
  | kv :: rest => insKv kv (sortKvs rest)

mutual

/-- Canonical form: object entry lists sorted by key, recursively. -/
def canon : Json → Json
  | .arr xs => .arr (canonList xs)
  | .obj kvs => .obj (sortKvs (canonKvs kvs))
  | x => x

/-- Canonical form of every array element. -/
def canonList : List Json → List Json
  | [] => []
  | x :: xs => canon x :: canonList xs

/-- Canonical form of every object entry value. -/
def canonKvs : List (String × Json) → List (String × Json)
  | [] => []
  | (k, v) :: rest => (k, canon v) :: canonKvs rest

end

/-- Model of the lodash deep equality used by verify (src/index.js line
162): key-order-insensitive structural equality of JSON values. -/
def isEqualJ (a b : Json) : Bool := canon a = canon b

theorem isEqualJ_refl (a : Json) : isEqualJ a a = true := by simp [isEqualJ]

mutual

/-- A deterministic serialization of JSON values, the stand-in digest body
for the modelled external hasher. -/
def jserialize : Json → String
  | .null => "null"
  | .bool b => if b then "true" else "false"
  | .num n => "n:" ++ n.repr
  | .str s => "s:" ++ s
  | .arr xs => "a(" ++ jserializeList xs ++ ")"
  | .obj kvs => "o(" ++ jserializeKvs kvs ++ ")"

/-- Serialization of array elements. -/
def jserializeList : List Json → String
  | [] => ""
  | x :: xs => jserialize x ++ "," ++ jserializeList xs

/-- Serialization of object entries. -/
def jserializeKvs : List (String × Json) → String
  | [] => ""
  | (k, v) :: rest => "k:" ++ k ++ "=" ++ jserialize v ++ "," ++ jserializeKvs rest

end

/-- Model of the external canonical hasher tsig.hashJSON (spec section 6):
deterministic, canonical (key-order independent via canon), returning an
object with the keys alg and hash.  The spec treats the hasher as an
out-of-scope collaborator; the library relies only on these properties. -/
def hashJSON (v : Json) : Json :=
  Json.obj [("alg", Json.str "SHA256"), ("hash", Json.str (jserialize (canon v)))]

/-- Test that a possibly-missing property is a string, the typeof checks of
isMask (src/index.js lines 36 to 39). -/
def isStrOpt : Option Json → Bool
  | some (.str _) => true
  | _ => false

/-- The unwrap step shared by verify, verifyRemote and domainForMask: a
truthy value with a truthy trellis-mask property is replaced by that
property (src/index.js lines 133, 179, 54). -/
def jsUnwrapTM (m : Json) : Json :=
  if truthy m && otruthy (Json.child m "trellis-mask") then (Json.child m "trellis-mask").getD .null
  else m

/-- Model of isMask (src/index.js lines 31 to 40): false for falsy values
and for non-objects (typeof check; arrays pass it); then the trellis-mask
unwrap (here without a truthiness test on t itself, already established);
then hashinfo must be truthy and url, nonceurl, hashinfo.alg and
hashinfo.hash must be strings.  The version field is never consulted. -/
def isMask (t : Json) : Bool :=
  if truthy t = false then false
  else match t with
    | .bool _ | .num _ | .str _ => false
    | t =>
      let t2 := if otruthy (Json.child t "trellis-mask") then (Json.child t "trellis-mask").getD .null else t
      if otruthy (Json.child t2 "hashinfo") = false then false
      else isStrOpt (Json.child t2 "url") && isStrOpt (Json.child t2 "nonceurl")
        && isStrOpt (Json.child (Json.childD t2 "hashinfo") "alg")
        && isStrOpt (Json.child (Json.childD t2 "hashinfo") "hash")

/-! Model of the Node legacy url.parse API (require url), restricted to the
shapes this library feeds it: absolute scheme://hostname[:port][/path]
URLs and scheme-less strings.  Per the Node documentation, protocol keeps
its trailing colon, host is the full lower-cased host INCLUDING the port,
hostname excludes it, and a URL with no path parses with pathname "/".
Query strings, fragments, auth sections and IPv6 hosts are outside the
model (the library never builds such URLs). -/

structure ParsedURL where
  protocol : Option String
  host : Option String
  port : Option String
  pathname : Option String
deriving DecidableEq

/-- Split a character list at the first slash; the slash stays with the
tail. -/
def splitAtFirstSlash : List Char → List Char × List Char
  | [] => ([], [])
  | '/' :: rest => ([], '/' :: rest)
  | c :: rest =>
    let p := splitAtFirstSlash rest
    (c :: p.1, p.2)

/-- Split a character list at its last colon, when one exists. -/
def splitAtLastColon (cs : List Char) : Option (List Char × List Char) :=
  let r := cs.reverse
  let p := r.span (fun c => c ≠ ':')
  match p.2 with
  | ':' :: beforeRev => some (beforeRev.reverse, p.1.reverse)
  | _ => none

/-- Scheme shape accepted by the legacy parser (letters, digits, plus,
minus, dot). -/
def schemeOk (cs : List Char) : Bool :=
  cs ≠ [] && cs.all fun c => c.isAlpha || c.isDigit || c = '+' || c = '-' || c = '.'

/-- Split at the first colon-slash-slash, when present: the characters
before it and the characters after it. -/
def splitScheme : List Char → Option (List Char × List Char)
  | [] => none
  | ':' :: '/' :: '/' :: rest => some ([], rest)
  | c :: rest =>
    match splitScheme rest with
    | some p => some (c :: p.1, p.2)
    | none => none

/-- Model of url.parse on the restricted grammar above. -/
def urlParse (s : String) : ParsedURL :=
  match splitScheme s.data with
  | some sp =>
    if schemeOk sp.1 then
      let p := splitAtFirstSlash sp.2
      let hostport := String.mk (p.1.map Char.toLower)
      let port := match splitAtLastColon p.1 with
        | some q => if q.2 ≠ [] && q.2.all Char.isDigit then some (String.mk q.2) else none
        | none => none
      { protocol := some (String.mk (sp.1.map Char.toLower ++ [':'])),
        host := some hostport,
        port := port,
        pathname := some (if p.2 = [] then "/" else String.mk p.2) }
    else { protocol := none, host := none, port := none,
           pathname := if s = "" then none else some s }
  | none => { protocol := none, host := none, port := none,
              pathname := if s = "" then none else some s }

/-- JavaScript string coercion of a possibly-null value, as the plus
operator performs it in domainFromURL. -/
def jsOptStr : Option String → String
  | none => "null"
  | some s => s

/-- Model of domainFromURL (src/index.js lines 41 to 47): protocol plus
slashes plus host plus, when the parsed port is truthy, a colon and the
port again.  Note that host already contains the port. -/
def domainFromURL (url : String) : String :=
  let u := urlParse url
  let p := match u.port with
    | some s => if s ≠ "" then ":" ++ s else ""
    | none => ""
  jsOptStr u.protocol ++ "//" ++ jsOptStr u.host ++ p

/-- Model of pathFromURL (src/index.js lines 48 to 51).  A null pathname
(malformed input, never produced by this library) is modelled as the empty
string. -/
def pathFromURL (url : String) : String := (urlParse url).pathname.getD ""

/-- Model of domainForMask (src/index.js lines 53 to 60): unwrap, return
false when the mask or its url is falsy, else parse the url.  The error
case models the TypeError url.parse raises on a non-string url. -/
def domainForMask (mask : Json) : Except Unit Json :=
  let m := jsUnwrapTM mask
  if truthy m = false || otruthy (Json.child m "url") = false then .ok (.bool false)
  else match Json.child m "url" with
    | some (.str s) => .ok (.str (domainFromURL s))
    | _ => .error ()

/-- Result record of mask (src/index.js line 121). -/
structure MaskResult where
  nonce : Json
  nonceurl : Json
  mask : Json
deriving DecidableEq

/-- Model of mask (src/index.js lines 98 to 122).  freshNonce stands for
the value makeNonce would draw from the external RNG; it is used only when
the caller passes a falsy nonce.  The error is the MissingNonceUrl throw.
Pure otherwise: builds the descriptor with version 1.0 and the commitment
hashJSON of the two-key wrapper with keys original and nonce. -/
def mask (original url nonce0 nonceurl : Json) (freshNonce : String) :
    Except Unit MaskResult :=
  let nonce := if truthy nonce0 then nonce0 else .str freshNonce
  if truthy nonceurl = false then .error ()
  else
    let tm : Json := .obj [
      ("version", .str "1.0"),
      ("hashinfo", hashJSON (.obj [("original", original), ("nonce", nonce)])),
      ("url", url),
      ("nonceurl", nonceurl)]
    .ok { nonce := nonce, nonceurl := nonceurl, mask := .obj [("trellis-mask", tm)] }

/-- Result record of verify (src/index.js line 164); jsMatch models the JS
key named match. -/
structure VerifyResult where
  valid : Bool
  jsMatch : Bool
  details : List String
deriving DecidableEq

/-- Model of verify (src/index.js lines 131 to 165): unwrap; falsy mask,
version not strictly equal to the string 1.0, falsy hashinfo, falsy
original or falsy nonce give valid false; otherwise valid true and match
is the lodash deep equality of the stored hashinfo and the recomputed
commitment. -/
def verify (mask0 original nonce : Json) : VerifyResult :=
  let mask := jsUnwrapTM mask0
  if truthy mask = false then
    { valid := false, jsMatch := false, details := ["Mask is null"] }
  else if Json.child mask "version" ≠ some (.str "1.0") then
    { valid := false, jsMatch := false, details := ["version is unknown"] }
  else if otruthy (Json.child mask "hashinfo") = false then
    { valid := false, jsMatch := false, details := ["Mask has no hashinfo"] }
  else if truthy original = false then
    { valid := false, jsMatch := false, details := ["Original is null"] }
  else if truthy nonce = false then
    { valid := false, jsMatch := false, details := ["Nonce is null"] }
  else
    let ohash := hashJSON (.obj [("original", original), ("nonce", nonce)])
    { valid := true,
      jsMatch := isEqualJ (Json.childD mask "hashinfo") ohash,
      details := ["Comparing nonced original hash to mask hash"] }

/-- Result record of verifyRemote (src/index.js lines 199 to 210). -/
structure VerifyRemoteResult where
  valid : Bool
  jsMatch : Bool
  original : Json
  nonce : Json
  details : List String
deriving DecidableEq

/-- Model of verifyRemote (src/index.js lines 178 to 211).  The connection
is abstracted as get, mapping a request path to the fetched data (none is a
failed fetch, which the source catches into null).  The first error models
the TypeError of reading url on a null or undefined mask; the later ones
model the throw of url.parse on a non-string url or nonceurl.  A fetch
that fails or returns falsy data yields valid false, match false;
otherwise the work is delegated to verify with the unwrapped mask. -/
def verifyRemote (mask0 : Json) (get : String → Option Json) :
    Except Unit VerifyRemoteResult := do
  let mask := jsUnwrapTM mask0
  let urlO ← Json.propAccess mask "url"
  if otruthy urlO = false then
    return { valid := false, jsMatch := false, original := .bool false, nonce := .bool false,
             details := ["The mask has no url"] }
  let urlS ← match urlO with
    | some (.str s) => Except.ok s
    | _ => Except.error ()
  let nonceurlS ← match Json.child mask "nonceurl" with
    | some (.str s) => Except.ok s
    | _ => Except.error ()
  let original := (get (pathFromURL urlS)).getD Json.null
  let nonce := (get (pathFromURL nonceurlS)).getD Json.null
  if truthy original = false || truthy nonce = false then
    return { valid := false, jsMatch := false, original := .bool false, nonce := .bool false,
             details := ["Failed to retrieve original or nonce"] }
  let result := verify mask original nonce
  return { valid := result.valid, jsMatch := result.jsMatch, original := original,
           nonce := nonce, details := result.details }

/-! Model of jsonpointer.set (the json-pointer npm package, version era of
this 2020 source, before the prototype-pollution guard of 0.6.1): walk the
tokens, converting a dash to the array length, creating a missing child
(array when the next token is digits or dash, object otherwise), then
assign at the last token.  Writes that JavaScript performs outside the
JSON data model (string properties on arrays, sparse holes, prototype
magic) are modelled as errors; no path proved about below ever reaches
them. -/

/-- Replace the value of the first entry with the given key, or append a
new entry, as property assignment does on a JavaScript object. -/
def replaceKv : List (String × Json) → String → Json → List (String × Json)
  | [], t, v => [(t, v)]
  | (k, w) :: rest, t, v =>
    if k = t then (t, v) :: rest else (k, w) :: replaceKv rest t v

/-- The digits-or-dash test of the container-creation clause of set. -/
def isDigitsOrDash (t : String) : Bool :=
  t ≠ "" && (t = "-" || t.toList.all Char.isDigit)

/-- One property assignment obj[t] = v: replace or append on an object; on
an array, an in-range canonical index replaces, the index equal to the
length (or a dash) appends; assignment to a property of null throws; on
other primitives it is a silent no-op outside strict mode. -/
def jsAssign (r : Json) (t : String) (v : Json) : Except Unit Json :=
  match r with
  | .obj kvs => .ok (.obj (replaceKv kvs t v))
  | .arr xs =>
    let t2 := if t = "-" then decRepr xs.length else t
    match arrIdx (xs.length + 1) t2 with
    | some i =>
      if i < xs.length then .ok (.arr (xs.set i v)) else .ok (.arr (xs ++ [v]))
    | none => .error ()
  | .null => .error ()
  | _ => .ok r

/-- The token walk of set as a recursion: rebuilding the child a step
modified is the pure-value image of the in-place mutation the source
performs on tree-shaped data. -/
def setToks : Json → List String → Json → Except Unit Json
  | _, [], _ => .error ()
  | r, [t], v => jsAssign r t v
  | r, t :: next :: rest, v =>
    match r with
    | .obj kvs =>
      let c := match jLook kvs t with
        | some c => c
        | none => if isDigitsOrDash next then .arr [] else .obj []
      do
        let c2 ← setToks c (next :: rest) v
        jsAssign (.obj kvs) t c2
    | .arr xs =>
      let t2 := if t = "-" then decRepr xs.length else t
      let c := match Json.child (.arr xs) t2 with
        | some c => c
        | none => if isDigitsOrDash next then .arr [] else .obj []
      do
        let c2 ← setToks c (next :: rest) v
        jsAssign (.arr xs) t2 c2
    | _ => .error ()

/-- Model of jsonpointer.set with a string pointer: parse then walk; error
models every throw. -/
def setPtr (r : Json) (p : String) (v : Json) : Except Unit Json :=
  match parsePtrQ p with
  | none => .error ()
  | some toks => setToks r toks v

/-- Result record of maskResource (src/index.js line 280). -/
structure MaskResourceResult where
  nonce : Json
  resource : Json
  nonceurl : Json
deriving DecidableEq

/-- Model of maskResource (src/index.js lines 262 to 281).  urlToResource
is the URL string (the falsy caller-error case is the empty string, giving
the all-false sentinel).  The source deep-copies the resource and then,
for each path, reads the subtree to mask FROM THE ORIGINAL resource
(line 272) while writing the built descriptor into the copy (line 278);
the fold below does exactly that.  One nonce and nonceurl serve every
path; freshNonce stands for the external RNG draw used when the caller
passes no nonce. -/
def maskResource (resource : Json) (urlToResource : String) (paths : List String)
    (nonce0 nonceurl0 : Json) (freshNonce : String) : Except Unit MaskResourceResult :=
  if urlToResource = "" then
    .ok { nonce := .bool false, resource := .bool false, nonceurl := .bool false }
  else
    let nonce := if truthy nonce0 then nonce0 else .str freshNonce
    let nonceurl := if truthy nonceurl0 then nonceurl0
      else .str (urlToResource ++ "/_meta/nonce")
    (paths.foldlM (fun r p => do
        let objToMask ← getPtr resource p
        let mr ← mask objToMask (.str (urlToResource ++ p)) nonce nonceurl freshNonce
        setPtr r p mr.mask) resource).map
      fun r => { nonce := nonce, resource := r, nonceurl := nonceurl }

/-- JavaScript property assignment h[k] = v as a value: replace or append
on an object, silent no-op on other non-null values. -/
def jsSet (h : Json) (k : String) (v : Json) : Json :=
  match h with
  | Json.obj kvs => Json.obj (replaceKv kvs k v)
  | other => other

/-- One header = header[k] || (header[k] = await compute) step of
signResource: keep the property when it is already truthy, otherwise run
the computation and assign its value. -/
def fillHeaderKey (h : Json) (k : String) (compute : Except Unit Json) :
    Except Unit Json :=
  if otruthy (Json.child h k) then pure h
  else do
    let v ← compute
    pure (jsSet h k v)

/-- Model of the header handling of signResource (src/index.js lines 232
to 246), returning the final value of the header object.  When the caller
passes a truthy header, the source assigns the missing jwk, kid and jku
properties INTO THAT OBJECT, so the value returned here is what the
caller's header binding holds after the call.  Reading kid or jku off a
null private key throws (TypeError); pubFromPriv models the external
tsig.keys.pubFromPriv.  The header is never passed to the external signer
(the source builds the options from signer, type and payload only). -/
def signResourceHeaderPost (header0 privateJWK : Json) (pubFromPriv : Json → Json) :
    Except Unit Json := do
  let header := if truthy header0 then header0 else Json.obj []
  let h1 := if otruthy (Json.child header "jwk") then header
    else jsSet header "jwk" (pubFromPriv privateJWK)
  let h2 ← fillHeaderKey h1 "kid" (do
    let kidO ← Json.propAccess privateJWK "kid"
    pure (kidO.getD Json.null))
  let h3 ← fillHeaderKey h2 "jku" (do
    let jkuO ← Json.propAccess privateJWK "jku"
    pure (jkuO.getD Json.null))
  pure h3

/-- Model of signResource (src/index.js lines 232 to 255): default the
signer, fill the header (mutating a caller-supplied header, whose final
value is returned alongside), build the payload with mask-paths when paths
is truthy, and call the external signer with type mask.  sign models
tsig.sign applied to (resource, privateJWK, options); per the external
contract of spec section 6 it returns a new document and does not mutate
the resource. -/
def signResource (resource privateJWK header0 signer0 paths : Json)
    (pubFromPriv : Json → Json) (sign : Json → Json → Json → Json) :
    Except Unit (Json × Json) := do
  let signer := if truthy signer0 then signer0 else
    Json.obj [("name", Json.str "No signer name available"),
              ("url", Json.str "https://github.com/trellisfw")]
  let headerFinal ← signResourceHeaderPost header0 privateJWK pubFromPriv
  let payload := if truthy paths then Json.obj [("mask-paths", paths)] else Json.obj []
  let options := Json.obj [("signer", signer), ("type", Json.str "mask"),
                           ("payload", payload)]
  pure (sign resource privateJWK options, headerFinal)

/-- Result record of reconstructOriginalFromMaskPaths (src/index.js line
368). -/
structure ReconResult where
  valid : Bool
  jsMatch : Bool
  details : List String
  resource : Json
deriving DecidableEq

/-- Coercion of the paths argument: bluebird Promise.map rejects on a
non-array. -/
def asArray : Json → Except Unit (List Json)
  | .arr xs => .ok xs
  | _ => .error ()

/-- Coercion of one path: jsonpointer.parse throws on a non-string. -/
def asStr : Json → Except Unit String
  | .str s => .ok s
  | _ => .error ()

/-- Model of reconstructOriginalFromMaskPaths (src/index.js lines 352 to
369).  Map phase: for every path, read the embedded descriptor from the
UNMODIFIED maskedResource and verify it remotely (the source maps
concurrently, before any write).  Reduce phase: the accumulator resource
starts as the maskedResource argument ITSELF, not a copy (line 367), and
jsonpointer.set mutates it in place; so the resource field of the result
is also the value of the caller's maskedResource binding after the call.
The fetched original is written at every path whether or not it matched;
valid and match are the conjunctions over paths.  The per-path detail
strings are abbreviated in this model. -/
def reconstructOriginalFromMaskPaths (maskedResource paths : Json)
    (get : String → Option Json) : Except Unit ReconResult := do
  let ps ← asArray paths
  let items ← ps.mapM fun pj => do
    let p ← asStr pj
    let m ← getPtr maskedResource p
    let vr ← verifyRemote m get
    pure (p, vr)
  items.foldlM (fun acc pv => do
      let r2 ← setPtr acc.resource pv.1 pv.2.original
      pure { valid := acc.valid && pv.2.valid,
             jsMatch := acc.jsMatch && pv.2.jsMatch,
             details := acc.details ++ ["Path " ++ pv.1 ++ " recorded"],
             resource := r2 })
    { valid := true, jsMatch := true, details := [], resource := maskedResource }

/-- The record the external signature verifier tsig.verify returns (spec
section 6); payload is Json.null when absent.  The source also builds its
signature-less base result in this shape (its extra match key is never
read and is not modelled). -/
structure ExtSigResult where
  trusted : Bool
  unchanged : Bool
  valid : Bool
  original : Json
  payload : Json
  details : List String

/-- The record one round of the recursive peel returns.  JavaScript object
returns differ by branch: the fatal invalid-signature return carries a
resource key and no trusted or original key; the combining return carries
original and trusted but no resource.  Absent keys are none. -/
structure RecVerdict where
  trusted : Option Bool
  unchanged : Bool
  valid : Bool
  jsMatch : Bool
  original : Option Json
  resource : Option Json
  details : List String
deriving DecidableEq

/-- Model of recursiveVerifyMaskSignatures (src/index.js lines 392 to
433).  tsv models the external tsig.verify; get models the connection;
the fuel argument bounds the recursion depth (the source recursion is
unbounded; every theorem below holds for every sufficient fuel).  With no
truthy signatures property the base result has trusted false, unchanged
false, valid true (nothing attested).  An invalid signature returns the
fatal record at once, with no recursive call and no reconstruction.  A
mask payload reconstructs the signed-over form; a modification payload
throws.  The round results compose by conjunction, except that the fatal
record lacks trusted and original, so the combination reads undefined
(none) out of them. -/
def recursiveVerifyMaskSignatures (tsv : Json → ExtSigResult)
    (get : String → Option Json) : Nat → Json → Except Unit RecVerdict
  | 0, _ => .error ()
  | fuel + 1, resource => do
    let sigs ← Json.propAccess resource "signatures"
    let sigResult : ExtSigResult :=
      if otruthy sigs then tsv resource
      else { trusted := false, unchanged := false, valid := true, original := resource,
             payload := Json.null, details := ["No signature on resource"] }
    if sigResult.valid = false then
      return { trusted := none, unchanged := false, valid := false, jsMatch := false,
               original := none, resource := some sigResult.original,
               details := ["Signature is invalid"] }
    let payload := sigResult.payload
    let reconstructResult ←
      if truthy payload then
        if Json.child payload "type" = some (Json.str "mask") then
          reconstructOriginalFromMaskPaths sigResult.original
            (Json.childD payload "mask-paths") get
        else if Json.child payload "type" = some (Json.str "modification") then
          Except.error ()
        else
          Except.ok { valid := sigResult.valid, jsMatch := true,
                      details := [], resource := sigResult.original }
      else
        Except.ok { valid := sigResult.valid, jsMatch := true,
                    details := [], resource := sigResult.original }
    let sigs2 ← Json.propAccess reconstructResult.resource "signatures"
    let next ←
      if otruthy sigs2 then
        recursiveVerifyMaskSignatures tsv get fuel reconstructResult.resource
      else
        Except.ok { trusted := some true, unchanged := true, valid := true, jsMatch := true,
                    original := some reconstructResult.resource, resource := none,
                    details := [] }
    return {
      trusted := if sigResult.trusted then next.trusted else some false,
      unchanged := sigResult.unchanged && next.unchanged,
      valid := sigResult.valid && next.valid && reconstructResult.valid,
      jsMatch := next.jsMatch && reconstructResult.jsMatch,
      original := next.original,
      resource := none,
      details := sigResult.details ++ reconstructResult.details ++ next.details }

/-- The record verifyRemoteResource resolves with (src/index.js lines 435
to 452). -/
structure TopVerdict where
  trusted : Option Bool
  unchanged : Bool
  valid : Bool
  jsMatch : Bool
  original : Option Json
  details : List String
deriving DecidableEq

/-- Model of verifyRemoteResource after the document fetch (src/index.js
lines 392 to 452): peel the signatures, then reconstruct any mask paths
still present in the recovered original and fold their verdicts in.  The
fetch of the document itself and the connection plumbing live upstream; a
claim about a fetched document is a claim about this function applied to
it. -/
def verifyRemoteResourceOnDoc (tsv : Json → ExtSigResult)
    (get : String → Option Json) (fuel : Nat) (doc : Json) :
    Except Unit TopVerdict := do
  let v ← recursiveVerifyMaskSignatures tsv get fuel doc
  let origJ := v.original.getD Json.null
  let paths := findAllMaskPathsInResource origJ
  if paths.length < 1 then
    return { trusted := v.trusted, unchanged := v.unchanged, valid := v.valid,
             jsMatch := v.jsMatch, original := v.original,
             details := v.details ++ ["After verifying signatures these mask paths remained"] }
  let rr ← reconstructOriginalFromMaskPaths origJ (Json.arr (paths.map Json.str)) get
  return { trusted := v.trusted, unchanged := v.unchanged,
           jsMatch := v.jsMatch && rr.jsMatch, valid := v.valid && rr.valid,
           original := some rr.resource,
           details := v.details ++ ["After verifying signatures these mask paths remained"]
             ++ rr.details }

/-! Properties of one assignment and of the set walk, used by the claims
about reconstruction and resource masking. -/

theorem replaceKv_look_self : ∀ (kvs : List (String × Json)) (t : String) (v c : Json),
    jLook kvs t = some c → jLook (replaceKv kvs t v) t = some v := by
  intro kvs
  induction kvs with
  | nil => intro t v c h; exact absurd h (by simp [jLook])
  | cons kv rest ih =>
    intro t v c h
    cases kv with
    | mk k w =>
      rw [jLook] at h
      rw [replaceKv]
      by_cases he : k = t
      · rw [if_pos he, jLook, if_pos rfl]
      · rw [if_neg he, jLook, if_neg he]
        exact ih t v c (by rw [if_neg he] at h; exact h)

theorem replaceKv_look_other : ∀ (kvs : List (String × Json)) (t s : String) (v : Json),
    s ≠ t → jLook (replaceKv kvs t v) s = jLook kvs s := by
  intro kvs
  induction kvs with
  | nil =>
    intro t s v hne
    have h2 : ¬ t = s := fun h3 => hne h3.symm
    simp [replaceKv, jLook, h2]
  | cons kv rest ih =>
    intro t s v hne
    cases kv with
    | mk k w =>
      rw [replaceKv]
      by_cases he : k = t
      · subst he
        rw [if_pos rfl, jLook, jLook, if_neg (fun h2 => hne h2.symm),
          if_neg (fun h2 => hne h2.symm)]
      · rw [if_neg he, jLook, jLook]
        by_cases he2 : k = s
        · rw [if_pos he2, if_pos he2]
        · rw [if_neg he2, if_neg he2]
          exact ih t s v hne

theorem decRepr_ne_dash (n : Nat) : decRepr n ≠ "-" := by
  intro h
  rcases decRepr_head_digit n with ⟨d, tail, hd, ht⟩
  have hdata : decChars n = ['-'] := congrArg String.data h
  rw [ht] at hdata
  interval_cases d <;> simp [digitChar] at hdata

theorem child_arr_dash (xs : List Json) : Json.child (Json.arr xs) "-" = none := by
  rw [Json.child]
  cases harr : arrIdx xs.length "-" with
  | none => rfl
  | some i => exact absurd (arrIdx_some harr).1.symm (decRepr_ne_dash i)

theorem list_get?_set_self : ∀ (xs : List Json) (i : Nat) (v : Json), i < xs.length →
    (xs.set i v).get? i = some v := by
  intro xs
  induction xs with
  | nil => intro i v h; exact absurd h (by simp)
  | cons x rest ih =>
    intro i v h
    cases i with
    | zero => rfl
    | succ j => exact ih j v (by simpa using h)

theorem list_get?_set_other : ∀ (xs : List Json) (i j : Nat) (v : Json), i ≠ j →
    (xs.set i v).get? j = xs.get? j := by
  intro xs
  induction xs with
  | nil => intro i j v h; rfl
  | cons x rest ih =>
    intro i j v h
    cases i with
    | zero =>
      cases j with
      | zero => exact absurd rfl h
      | succ j2 => rfl
    | succ i2 =>
      cases j with
      | zero => rfl
      | succ j2 => exact ih i2 j2 v (fun he => h (by rw [he]))

/-- One successful property assignment at a resolving token: the token now
reads the new value and every other token reads what it did before. -/
theorem jsAssign_spec {r c : Json} {t : String} (v : Json)
    (h : Json.child r t = some c) :
    ∃ r2, jsAssign r t v = .ok r2 ∧ Json.child r2 t = some v ∧
      ∀ s, s ≠ t → Json.child r2 s = Json.child r s := by
  cases r with
  | obj kvs =>
    rw [Json.child] at h
    refine ⟨.obj (replaceKv kvs t v), rfl, ?_, ?_⟩
    · rw [Json.child]
      exact replaceKv_look_self kvs t v c h
    · intro s hs
      rw [Json.child, Json.child]
      exact replaceKv_look_other kvs t s v hs
  | arr xs =>
    have hdash : t ≠ "-" := by
      intro he
      rw [he, child_arr_dash] at h
      exact absurd h (by simp)
    rw [Json.child] at h
    cases hai : arrIdx xs.length t with
    | none => rw [hai] at h; exact absurd h (by simp)
    | some i =>
      rw [hai] at h
      have h2 : xs.get? i = some c := h
      have hlt : i < xs.length := by
        rcases List.get?_eq_some.mp h2 with ⟨hl, _⟩
        exact hl
      rcases arrIdx_some hai with ⟨hrepr, _⟩
      refine ⟨.arr (xs.set i v), ?_, ?_, ?_⟩
      · have hai2 : arrIdx (xs.length + 1) t = some i := by
          rw [hrepr]; exact arrIdx_repr (by omega)
        rw [jsAssign, if_neg hdash, hai2]
        show (if i < xs.length then Except.ok (Json.arr (xs.set i v))
          else Except.ok (Json.arr (xs ++ [v]))) = Except.ok (Json.arr (xs.set i v))
        rw [if_pos hlt]
      · rw [Json.child, List.length_set, hai]
        exact list_get?_set_self xs i v hlt
      · intro s hs
        rw [Json.child, Json.child, List.length_set]
        cases has : arrIdx xs.length s with
        | none => rfl
        | some j =>
          have hji : i ≠ j := by
            intro he
            exact hs (((arrIdx_some has).1.trans (congrArg decRepr he.symm)).trans hrepr.symm)
          exact list_get?_set_other xs i j v hji
  | null => exact absurd (show (none : Option Json) = some c from h) (by simp)
  | bool b => exact absurd (show (none : Option Json) = some c from h) (by simp)
  | num n => exact absurd (show (none : Option Json) = some c from h) (by simp)
  | str s => exact absurd (show (none : Option Json) = some c from h) (by simp)

theorem except_bind_ok {α β : Type} {m : Except Unit α} {a : α} (f : α → Except Unit β)
    (h : m = Except.ok a) : (do let x ← m; f x) = f a := by
  rw [h]; rfl

theorem setToks_obj_cons (kvs : List (String × Json)) (t next : String) (rest : List String)
    (v c : Json) (h : jLook kvs t = some c) :
    setToks (.obj kvs) (t :: next :: rest) v = (do
      let c2 ← setToks c (next :: rest) v
      jsAssign (.obj kvs) t c2) := by
  rw [setToks]
  simp only [h]

theorem setToks_arr_cons (xs : List Json) (t next : String) (rest : List String)
    (v c : Json) (hd : t ≠ "-") (h : Json.child (.arr xs) t = some c) :
    setToks (.arr xs) (t :: next :: rest) v = (do
      let c2 ← setToks c (next :: rest) v
      jsAssign (.arr xs) t c2) := by
  rw [setToks]
  simp only [if_neg hd, h]

theorem setToks_cons_of_child {r c : Json} {t next : String} {rest : List String} (v : Json)
    (h : Json.child r t = some c) :
    setToks r (t :: next :: rest) v = (do
      let c2 ← setToks c (next :: rest) v
      jsAssign r t c2) := by
  cases r with
  | obj kvs => exact setToks_obj_cons kvs t next rest v c (by rw [Json.child] at h; exact h)
  | arr xs =>
    have hd : t ≠ "-" := by
      intro he
      rw [he, child_arr_dash] at h
      exact absurd h (by simp)
    exact setToks_arr_cons xs t next rest v c hd h
  | null => exact absurd (show (none : Option Json) = some c from h) (by simp)
  | bool b => exact absurd (show (none : Option Json) = some c from h) (by simp)
  | num n => exact absurd (show (none : Option Json) = some c from h) (by simp)
  | str s => exact absurd (show (none : Option Json) = some c from h) (by simp)

/-- Full specification of a successful set walk at a resolving nonempty
token path: afterwards the path reads the new value, every path that
neither leads nor extends it reads what it did before, and at every proper
lead the value keeps all children except the one the path continues
through. -/
theorem setToks_spec : ∀ (toks : List String) (r w v : Json),
    toks ≠ [] → getToks r toks = some w →
    ∃ r2, setToks r toks v = .ok r2 ∧
      getToks r2 toks = some v ∧
      (∀ b : List String, leadB toks b = false → leadB b toks = false →
        getToks r2 b = getToks r b) ∧
      (∀ q t2 rest2, toks = q ++ t2 :: rest2 →
        ∀ nq, getToks r q = some nq →
          ∃ nq2, getToks r2 q = some nq2 ∧
            ∀ s, s ≠ t2 → Json.child nq2 s = Json.child nq s) := by
  intro toks
  induction toks with
  | nil => intro r w v hne; exact absurd rfl hne
  | cons t rest ih =>
    intro r w v _ hget
    cases rest with
    | nil =>
      have hc : Json.child r t = some w := by
        rw [getToks] at hget
        cases hch : Json.child r t with
        | none => rw [hch] at hget; exact hget
        | some c => rw [hch] at hget; exact hget
      rcases jsAssign_spec v hc with ⟨r2, hassign, hchild, hother⟩
      refine ⟨r2, hassign, ?_, ?_, ?_⟩
      · rw [getToks, hchild]; rfl
      · intro b hb1 hb2
        cases b with
        | nil => simp [leadB] at hb2
        | cons s b2 =>
          by_cases hst : s = t
          · subst hst
            simp [leadB] at hb1
          · rw [getToks, getToks, hother s hst]
      · intro q t2 rest2 heq nq hq
        cases q with
        | nil =>
          rw [List.nil_append] at heq
          injection heq with h1 h2
          have hnq : nq = r := (Option.some.inj hq).symm
          refine ⟨r2, rfl, ?_⟩
          intro s hs
          rw [hnq]
          exact hother s (fun he => hs (he.trans h1))
        | cons qh q2 =>
          rw [List.cons_append] at heq
          injection heq with h1 h2
          exact absurd h2 (by simp)
    | cons next rest2 =>
      rw [getToks] at hget
      cases hch : Json.child r t with
      | none => rw [hch] at hget; exact absurd hget (by simp)
      | some c =>
        rw [hch] at hget
        rcases ih c w v (by simp) hget with ⟨c2, hset, hget2, hframe, hlead⟩
        rcases jsAssign_spec c2 hch with ⟨r2, hassign, hchild2, hother2⟩
        have hstep : setToks r (t :: next :: rest2) v = Except.ok r2 := by
          rw [setToks_cons_of_child v hch, except_bind_ok _ hset]
          exact hassign
        refine ⟨r2, hstep, ?_, ?_, ?_⟩
        · rw [getToks, hchild2]
          exact hget2
        · intro b hb1 hb2
          cases b with
          | nil => simp [leadB] at hb2
          | cons s b2 =>
            by_cases hst : s = t
            · subst hst
              rw [leadB] at hb1
              rw [leadB] at hb2
              simp at hb1 hb2
              rw [getToks, getToks, hchild2, hch]
              exact hframe b2 hb1 hb2
            · rw [getToks, getToks, hother2 s hst]
        · intro q t2 r3 heq nq hq
          cases q with
          | nil =>
            rw [List.nil_append] at heq
            injection heq with h1 h2
            have hnq : nq = r := (Option.some.inj hq).symm
            refine ⟨r2, rfl, ?_⟩
            intro s hs
            rw [hnq]
            exact hother2 s (fun he => hs (he.trans h1))
          | cons qh q2 =>
            rw [List.cons_append] at heq
            injection heq with h1 h2
            subst h1
            rw [getToks, hch] at hq
            rcases hlead q2 t2 r3 h2 nq hq with ⟨nq2, hq2, hpres⟩
            refine ⟨nq2, ?_, hpres⟩
            rw [getToks, hchild2]
            exact hq2

/-! Claim theorems. -/

/-- C10: verifyRemote called with a null or undefined mask throws (the
TypeError of reading url off null at src/index.js line 182: the unwrap
guard short-circuits on a falsy mask and leaves it null), instead of
returning a valid false verdict; by contrast verify returns the structured
valid false, match false verdict for the same absent mask. -/
theorem c10_verifyRemote_null_mask_throws :
    (∀ get : String → Option Json, verifyRemote Json.null get = .error ()) ∧
    (∀ o n : Json, (verify Json.null o n).valid = false ∧
      (verify Json.null o n).jsMatch = false) :=
  ⟨fun _ => rfl, fun _ _ => ⟨rfl, rfl⟩⟩

/-- The port-bearing mask of the C9 failing input. -/
def maskWithPort : Json :=
  Json.obj [("trellis-mask", Json.obj
    [("url", Json.str "https://trusted.com:8080/resources/1/location")])]

/-- The mask of the repository test for domainForMask (no port). -/
def maskNoPort : Json :=
  Json.obj [("trellis-mask", Json.obj
    [("url", Json.str "https://trusted.com/resources/1/location")])]

/-- C9: evaluation of domainForMask at the failing input.  Node url.parse
puts the port INSIDE host, and domainFromURL appends colon port again
(src/index.js lines 41 to 47), so a port-bearing URL yields the port
twice, contradicting the format https colon slash slash some.domain colon
port stated in the comment of the source and in the spec.  The portless
case of the repository test suite agrees with the model; and a malformed
url is not reported as absent but as a garbage string built from the null
protocol and host. -/
theorem c9_domainForMask_port_duplicated :
    domainForMask maskWithPort = .ok (.str "https://trusted.com:8080:8080") ∧
    domainForMask maskNoPort = .ok (.str "https://trusted.com") ∧
    domainFromURL "notaurl" = "null//null" := by
  refine ⟨?_, ?_, ?_⟩ <;> decide

/-- C2 counterexample: with the falsy nonce (the empty string), mask
succeeds (drawing a fresh random nonce instead), but verifying the
produced mask against the same original and the same (falsy) nonce
returns match false, not the match true the claim states for every
nonce. -/
theorem c2_counterexample_falsy_nonce :
    (mask (Json.str "o") (Json.str "u") (Json.str "") (Json.str "nu") "R").map
      (fun mr => ((verify mr.mask (Json.str "o") (Json.str "")).valid,
                  (verify mr.mask (Json.str "o") (Json.str "")).jsMatch))
      = .ok (false, false) := by
  decide

/-- C2 amended: for truthy original, truthy nonce and truthy nonceurl
(so that mask does not throw and uses the given nonce), verifying the
mask produced by mask against the same original and nonce yields valid
true and match true: the commitment recomputed by verify is the very
hashJSON value mask stored. -/
theorem c2_mask_verify_roundtrip (original url nonce nonceurl : Json)
    (freshNonce : String) (mr : MaskResult)
    (ho : truthy original = true) (hn : truthy nonce = true)
    (hm : mask original url nonce nonceurl freshNonce = .ok mr) :
    (verify mr.mask original nonce).valid = true ∧
    (verify mr.mask original nonce).jsMatch = true := by
  unfold mask at hm
  rw [hn] at hm
  simp only [if_true] at hm
  by_cases hnu : truthy nonceurl = false
  · rw [if_pos hnu] at hm
    exact absurd hm (by simp)
  · rw [if_neg hnu] at hm
    have hmr := (Except.ok.injEq _ _ ▸ hm)
    subst hmr
    constructor
    · simp [verify, jsUnwrapTM, Json.child, jLook, otruthy, Json.truthy_obj, hashJSON, ho, hn]
    · simp [verify, jsUnwrapTM, Json.child, jLook, Json.childD, otruthy, Json.truthy_obj,
        hashJSON, ho, hn, isEqualJ_refl]

theorem isStrOpt_iff (o : Option Json) : isStrOpt o = true ↔ ∃ s, o = some (Json.str s) := by
  cases o with
  | none => simp [isStrOpt]
  | some j => cases j <;> simp [isStrOpt]

/-- The mask predicate as the specification words it (spec sections 3 and
4.A): v is an object, and either v itself or its trellis-mask property
has all FOUR required fields present and well-typed: version a string,
hashinfo with string alg and hash, url a string, nonceurl a string.  This
definition follows the words of the spec, for comparison against the
source isMask. -/
def isMaskSpec (v : Json) : Bool :=
  match v with
  | .obj _ =>
    let hasAllFour := fun (t : Json) =>
      isStrOpt (Json.child t "version") &&
      (match Json.child t "hashinfo" with
       | some hi => isStrOpt (Json.child hi "alg") && isStrOpt (Json.child hi "hash")
       | none => false) &&
      isStrOpt (Json.child t "url") && isStrOpt (Json.child t "nonceurl")
    hasAllFour v || hasAllFour (Json.childD v "trellis-mask")
  | _ => false

/-- A descriptor with hashinfo, url and nonceurl but NO version field. -/
def noVersionMask : Json :=
  Json.obj [("hashinfo", Json.obj [("alg", Json.str "SHA256"), ("hash", Json.str "xyz")]),
            ("url", Json.str "u"), ("nonceurl", Json.str "nu")]

/-- C4 counterexample: the source isMask accepts a descriptor with no
version field at all, while the claim requires all four descriptor fields
including version; the two predicates disagree at this value, so the
claimed equivalence is false. -/
theorem c4_counterexample_version_not_checked :
    isMask noVersionMask = true ∧ isMaskSpec noVersionMask = false := by
  decide

/-- C4 amended: isMask is true exactly when the value is an object or an
array (truthy, of JS type object), and, after replacing it by its
trellis-mask property when that is truthy (only the inner descriptor is
consulted in that case, never the outer), the hashinfo property is truthy
and url, nonceurl, hashinfo.alg and hashinfo.hash are all strings.  The
version field is not consulted. -/
theorem c4_isMask_characterization (v : Json) :
    isMask v = true ↔
      (((∃ kvs, v = Json.obj kvs) ∨ (∃ xs, v = Json.arr xs)) ∧
       (otruthy (Json.child (jsUnwrapTM v) "hashinfo") = true ∧
        (∃ u, Json.child (jsUnwrapTM v) "url" = some (Json.str u)) ∧
        (∃ nu, Json.child (jsUnwrapTM v) "nonceurl" = some (Json.str nu)) ∧
        (∃ a, Json.child (Json.childD (jsUnwrapTM v) "hashinfo") "alg" = some (Json.str a)) ∧
        (∃ h, Json.child (Json.childD (jsUnwrapTM v) "hashinfo") "hash" = some (Json.str h)))) := by
  cases v with
  | null => simp [show isMask Json.null = false from rfl]
  | bool b => cases b <;> simp [show ∀ b2 : Bool, isMask (Json.bool b2) = false from
      fun b2 => by cases b2 <;> rfl]
  | num n =>
    have h : isMask (Json.num n) = false := by
      simp only [isMask]
      split <;> rfl
    simp [h]
  | str s =>
    have h : isMask (Json.str s) = false := by
      simp only [isMask]
      split <;> rfl
    simp [h]
  | obj kvs =>
    by_cases htm : otruthy (Json.child (Json.obj kvs) "trellis-mask") = true
    · by_cases hhi : otruthy (Json.child ((Json.child (Json.obj kvs) "trellis-mask").getD
        Json.null) "hashinfo") = true
      · simp [isMask, jsUnwrapTM, htm, hhi, isStrOpt_iff, Json.childD, and_assoc,
          Json.truthy_obj]
      · simp [isMask, jsUnwrapTM, htm, hhi, isStrOpt_iff, Json.childD, Json.truthy_obj]
    · by_cases hhi : otruthy (Json.child (Json.obj kvs) "hashinfo") = true
      · simp [isMask, jsUnwrapTM, htm, hhi, isStrOpt_iff, Json.childD, and_assoc,
          Json.truthy_obj]
      · simp [isMask, jsUnwrapTM, htm, hhi, isStrOpt_iff, Json.childD, Json.truthy_obj]
  | arr xs =>
    have h1 : Json.child (Json.arr xs) "trellis-mask" = none := child_arr_tm xs
    have h2 : Json.child (Json.arr xs) "hashinfo" = none :=
      child_arr_of_nondigit_head xs "hashinfo" (by decide)
    simp [isMask, jsUnwrapTM, h1, h2, Json.truthy_arr, otruthy]

/-- C5: verify returns valid false exactly when the unwrapped mask is
falsy (the mask is absent), its version property is not strictly the
string 1.0, its hashinfo is falsy (missing), the original is falsy
(absent) or the nonce is falsy (absent); otherwise it returns valid true
with match the lodash deep equality of the stored hashinfo against the
recomputed commitment hashJSON of the two-key wrapper of original and
nonce.  Absent is formalized as JS-falsy, which is the test the source
performs (src/index.js lines 136 to 162). -/
theorem c5_verify_characterization (m o n : Json) :
    ((verify m o n).valid = false ↔
      (truthy (jsUnwrapTM m) = false ∨
       Json.child (jsUnwrapTM m) "version" ≠ some (.str "1.0") ∨
       otruthy (Json.child (jsUnwrapTM m) "hashinfo") = false ∨
       truthy o = false ∨ truthy n = false)) ∧
    ((verify m o n).valid = true →
      (verify m o n).jsMatch =
        isEqualJ (Json.childD (jsUnwrapTM m) "hashinfo")
          (hashJSON (Json.obj [("original", o), ("nonce", n)]))) := by
  unfold verify
  by_cases hm1 : truthy (jsUnwrapTM m) = false
  · simp [hm1]
  · by_cases hm2 : Json.child (jsUnwrapTM m) "version" = some (Json.str "1.0")
    · by_cases hm3 : otruthy (Json.child (jsUnwrapTM m) "hashinfo") = false
      · simp [hm1, hm2, hm3]
      · by_cases ho : truthy o = false
        · simp [hm1, hm2, hm3, ho]
        · by_cases hn : truthy n = false
          · simp [hm1, hm2, hm3, ho, hn]
          · simp [hm1, hm2, hm3, ho, hn]
    · simp [hm1, hm2]

/-- C5 witness: the characterization applied at the concrete valid,
matching inputs of the repository test suite shape. -/
theorem c5_verify_characterization_witness :
    ((verify Json.null Json.null Json.null).valid = false ↔
      (truthy (jsUnwrapTM Json.null) = false ∨
       Json.child (jsUnwrapTM Json.null) "version" ≠ some (.str "1.0") ∨
       otruthy (Json.child (jsUnwrapTM Json.null) "hashinfo") = false ∨
       truthy Json.null = false ∨ truthy Json.null = false)) ∧
    ((verify Json.null Json.null Json.null).valid = true →
      (verify Json.null Json.null Json.null).jsMatch =
        isEqualJ (Json.childD (jsUnwrapTM Json.null) "hashinfo")
          (hashJSON (Json.obj [("original", Json.null), ("nonce", Json.null)]))) :=
  c5_verify_characterization Json.null Json.null Json.null

/-- C7: whenever the document has a truthy signatures property and the
external verifier declares its signature invalid, the recursive peel
returns (does not throw) the recovered fatal verdict valid false, match
false, unchanged false, carrying the as-signed document under the
resource key.  The equation holds for every fuel bound, every behavior of
the external verifier on other documents and every connection, which is
the formal sense in which no further peeling happens below that point. -/
theorem c7_invalid_signature_recovered
    (tsv : Json → ExtSigResult) (get : String → Option Json) (n : Nat)
    (resource : Json) (sigs : Option Json)
    (hacc : Json.propAccess resource "signatures" = .ok sigs)
    (htr : otruthy sigs = true)
    (hval : (tsv resource).valid = false) :
    recursiveVerifyMaskSignatures tsv get (n + 1) resource =
      .ok { trusted := none, unchanged := false, valid := false, jsMatch := false,
            original := none, resource := some (tsv resource).original,
            details := ["Signature is invalid"] } := by
  rw [recursiveVerifyMaskSignatures]
  rw [hacc]
  simp only [bind, Except.bind, htr, if_true]
  simp [hval]
  rfl

/-- The concrete invalid-signature document and verifier of the C7
witness. -/
def invalidSigDoc : Json := Json.obj [("signatures", Json.arr [Json.num 1])]

/-- An external verifier that rejects every signature. -/
def rejectAllTsv : Json → ExtSigResult := fun _ =>
  { trusted := true, unchanged := true, valid := false, original := Json.num 7,
    payload := Json.null, details := [] }

/-- C7 witness: the fatal recovery at a concrete one-signature document
whose signature the external verifier rejects. -/
theorem c7_invalid_signature_recovered_witness :
    recursiveVerifyMaskSignatures rejectAllTsv (fun _ => none) 1 invalidSigDoc =
      .ok { trusted := none, unchanged := false, valid := false, jsMatch := false,
            original := none, resource := some (rejectAllTsv invalidSigDoc).original,
            details := ["Signature is invalid"] } :=
  c7_invalid_signature_recovered rejectAllTsv (fun _ => none) 0 invalidSigDoc
    (some (Json.arr [Json.num 1])) rfl rfl rfl

theorem peel_no_sigs (tsv : Json → ExtSigResult) (get : String → Option Json)
    (n : Nat) (doc : Json) (s : Option Json)
    (hacc : Json.propAccess doc "signatures" = .ok s) (hs : otruthy s = false) :
    recursiveVerifyMaskSignatures tsv get (n + 1) doc =
      .ok { trusted := some false, unchanged := false, valid := true, jsMatch := true,
            original := some doc, resource := none,
            details := ["No signature on resource"] } := by
  rw [recursiveVerifyMaskSignatures, hacc]
  simp only [bind, Except.bind, hs]
  simp [hacc, hs]
  rfl

/-- C6: a fetched document with no signatures array (a falsy signatures
property) and no mask descriptors in it (the walker finds no paths) gets
the verdict valid true, match true, unchanged false, trusted false, with
original the document itself, for every fuel bound, external verifier and
connection. -/
theorem c6_no_sig_no_masks_verdict
    (doc : Json) (s : Option Json) (tsv : Json → ExtSigResult)
    (get : String → Option Json) (n : Nat)
    (hacc : Json.propAccess doc "signatures" = .ok s)
    (hs : otruthy s = false)
    (hnm : findAllMaskPathsInResource doc = []) :
    ∃ d, verifyRemoteResourceOnDoc tsv get (n + 1) doc =
      .ok { trusted := some false, unchanged := false, valid := true, jsMatch := true,
            original := some doc, details := d } := by
  refine ⟨["No signature on resource",
           "After verifying signatures these mask paths remained"], ?_⟩
  unfold verifyRemoteResourceOnDoc
  rw [peel_no_sigs tsv get n doc s hacc hs]
  simp only [bind, Except.bind, Option.getD]
  simp [hnm]
  rfl

/-- C6 witness: the verdict at a concrete unsigned, unmasked document. -/
theorem c6_no_sig_no_masks_verdict_witness :
    ∃ d, verifyRemoteResourceOnDoc rejectAllTsv (fun _ => none) 1
        (Json.obj [("x", Json.num 1)]) =
      .ok { trusted := some false, unchanged := false, valid := true, jsMatch := true,
            original := some (Json.obj [("x", Json.num 1)]), details := d } :=
  c6_no_sig_no_masks_verdict (Json.obj [("x", Json.num 1)]) none rejectAllTsv
    (fun _ => none) 0 rfl rfl (by decide)

/-- C2 witness: the amended round trip at a concrete original, nonce and
nonceurl. -/
theorem c2_mask_verify_roundtrip_witness :
    (verify (Json.obj [("trellis-mask", Json.obj [
        ("version", Json.str "1.0"),
        ("hashinfo", hashJSON (Json.obj [("original", Json.obj [("here", Json.str "we")])
          , ("nonce", Json.str "abc")])),
        ("url", Json.str "https://t.com/resources/1/location"),
        ("nonceurl", Json.str "https://t.com/resources/1/_meta/nonce")])])
      (Json.obj [("here", Json.str "we")]) (Json.str "abc")).valid = true ∧
    (verify (Json.obj [("trellis-mask", Json.obj [
        ("version", Json.str "1.0"),
        ("hashinfo", hashJSON (Json.obj [("original", Json.obj [("here", Json.str "we")])
          , ("nonce", Json.str "abc")])),
        ("url", Json.str "https://t.com/resources/1/location"),
        ("nonceurl", Json.str "https://t.com/resources/1/_meta/nonce")])])
      (Json.obj [("here", Json.str "we")]) (Json.str "abc")).jsMatch = true :=
  c2_mask_verify_roundtrip (Json.obj [("here", Json.str "we")])
    (Json.str "https://t.com/resources/1/location") (Json.str "abc")
    (Json.str "https://t.com/resources/1/_meta/nonce") "R" _ (by decide) (by decide) rfl


/-- A resource with an entry carrying a truthy trellis-mask that holds only a
url, so the walker returns it although isMask rejects it. -/
def urlOnlyInner : Json :=
  Json.obj [("trellis-mask", Json.obj [("url", Json.str "https://x/y")])]

/-- Wrapping resource for the walker counterexample. -/
def urlOnlyMaskRes : Json := Json.obj [("k", urlOnlyInner)]

/-- C3: refuted as stated.  findAllMaskPathsInResource returns the path /k
for a value whose trellis-mask property holds only a url, and isMask is
false at that value: the walker tests only truthiness of the trellis-mask
property (src/index.js line 67), not the full isMask shape. -/
theorem c3_counterexample_url_only_mask :
    findAllMaskPathsInResource urlOnlyMaskRes = ["/k"] ∧
    getToks urlOnlyMaskRes ["k"] = some urlOnlyInner ∧
    isMask urlOnlyInner = false := by decide

/-- C3 (amended): on a well-formed resource (no duplicate object keys, the
JavaScript object invariant), the walker returns pairwise-distinct paths;
each returned path parses and resolves to a value with a truthy
trellis-mask property (not necessarily a full isMask descriptor); and no
returned path is a proper lead of another returned path at the
reference-token level. -/
theorem c3_walker_invariants (r : Json) (hwf : wfB r = true) :
    (findAllMaskPathsInResource r).Nodup ∧
    (∀ p ∈ findAllMaskPathsInResource r, ∃ toks v,
      parsePtrQ p = some toks ∧ getToks r toks = some v ∧ tmTruthy v = true) ∧
    (∀ p q, p ∈ findAllMaskPathsInResource r → q ∈ findAllMaskPathsInResource r →
      p ≠ q → ∀ tp tq, parsePtrQ p = some tp → parsePtrQ q = some tq →
        leadB tp tq = false) := by
  refine ⟨?_, ?_, ?_⟩
  · rw [findAll_eq_compile]
    exact (maskPaths_nodup r hwf).map compilePtr_injective
  · intro p hp
    rw [findAll_eq_compile] at hp
    rcases List.mem_map.mp hp with ⟨c, hc, hpc⟩
    rcases (maskPaths_sound r hwf c hc).1 with ⟨v, hv, htm⟩
    exact ⟨c, v, by rw [← hpc]; exact parse_compile c, hv, htm⟩
  · intro p q hp hq hpq tp tq htp htq
    rw [findAll_eq_compile] at hp hq
    rcases List.mem_map.mp hp with ⟨c1, hc1, hpc1⟩
    rcases List.mem_map.mp hq with ⟨c2, hc2, hpc2⟩
    have htp2 : tp = c1 := by
      rw [← hpc1, parse_compile] at htp
      exact (Option.some.inj htp).symm
    have htq2 : tq = c2 := by
      rw [← hpc2, parse_compile] at htq
      exact (Option.some.inj htq).symm
    rw [htp2, htq2]
    by_contra hlead
    have hlead2 : leadB c1 c2 = true := by
      cases h2 : leadB c1 c2 with
      | false => exact absurd h2 hlead
      | true => rfl
    have hne : c1 ≠ c2 := fun he => hpq (by rw [← hpc1, ← hpc2, he])
    rcases (maskPaths_sound r hwf c2 hc2).2 c1 hlead2 hne with ⟨n, hn, hnf⟩
    rcases (maskPaths_sound r hwf c1 hc1).1 with ⟨v, hv, hvt⟩
    rw [hv] at hn
    rw [Option.some.inj hn] at hvt
    rw [hvt] at hnf
    exact absurd hnf (by simp)

/-- Closed instance of the amended walker invariants at the counterexample
resource, which is well-formed. -/
theorem c3_walker_invariants_witness :
    (findAllMaskPathsInResource urlOnlyMaskRes).Nodup ∧
    (∀ p ∈ findAllMaskPathsInResource urlOnlyMaskRes, ∃ toks v,
      parsePtrQ p = some toks ∧ getToks urlOnlyMaskRes toks = some v ∧ tmTruthy v = true) ∧
    (∀ p q, p ∈ findAllMaskPathsInResource urlOnlyMaskRes →
      q ∈ findAllMaskPathsInResource urlOnlyMaskRes →
      p ≠ q → ∀ tp tq, parsePtrQ p = some tp → parsePtrQ q = some tq →
        leadB tp tq = false) :=
  c3_walker_invariants urlOnlyMaskRes (by decide)


/-! Claim C1: mutation behaviour of the mask operations. -/

theorem jsSet_child_other (h : Json) (k s : String) (v : Json) (hs : s ≠ k) :
    Json.child (jsSet h k v) s = Json.child h s := by
  cases h with
  | obj kvs =>
    show Json.child (Json.obj (replaceKv kvs k v)) s = Json.child (Json.obj kvs) s
    rw [Json.child, Json.child]
    exact replaceKv_look_other kvs k s v hs
  | null => rfl
  | bool b => rfl
  | num n => rfl
  | str s2 => rfl
  | arr xs => rfl

theorem condSet_child_other (h : Json) (k s : String) (v : Json) (hs : s ≠ k) :
    Json.child (if otruthy (Json.child h k) then h else jsSet h k v) s = Json.child h s := by
  by_cases hc : otruthy (Json.child h k) = true
  · rw [if_pos hc]
  · rw [if_neg hc]
    exact jsSet_child_other h k s v hs

theorem fillHeaderKey_noop {h : Json} {k : String} (m : Except Unit Json)
    (hc : otruthy (Json.child h k) = true) :
    fillHeaderKey h k m = Except.ok h := by
  rw [fillHeaderKey, if_pos hc]
  rfl

theorem fillHeaderKey_child_other {h h2 : Json} {k : String} {m : Except Unit Json}
    (hok : fillHeaderKey h k m = Except.ok h2) :
    ∀ s, s ≠ k → Json.child h2 s = Json.child h s := by
  intro s hs
  rw [fillHeaderKey] at hok
  by_cases hc : otruthy (Json.child h k) = true
  · rw [if_pos hc] at hok
    have hok2 : Except.ok h = Except.ok h2 := hok
    rw [← Except.ok.inj hok2]
  · rw [if_neg hc] at hok
    cases hm : m with
    | error e =>
      rw [hm] at hok
      exact Except.noConfusion (show (Except.error e : Except Unit Json) = Except.ok h2 from hok)
    | ok v =>
      rw [hm] at hok
      have hok2 : Except.ok (jsSet h k v) = Except.ok h2 := hok
      rw [← Except.ok.inj hok2]
      exact jsSet_child_other h k s v hs

/-- Private key for the header-mutation counterexample. -/
def pk0 : Json := Json.obj [("kid", Json.str "K"), ("jku", Json.str "J")]

/-- Caller-supplied header lacking jwk, kid and jku. -/
def hdr0 : Json := Json.obj [("x", Json.num 1)]

/-- Descriptor stored in the masked resource of the reconstruction
counterexample (version deliberately absent: reconstruction writes the
fetched original even when verification ends with match false). -/
def m0tm : Json := Json.obj [("url", Json.str "https://h/resources/1/a"),
  ("nonceurl", Json.str "https://h/resources/1/_meta/nonce")]

/-- The mask value embedded at /a. -/
def maskAt0 : Json := Json.obj [("trellis-mask", m0tm)]

/-- The masked resource handed to reconstructOriginalFromMaskPaths. -/
def m0 : Json := Json.obj [("a", maskAt0)]

/-- Connection serving the original and the nonce of the counterexample. -/
def get0 : String → Option Json := fun s =>
  if s = pathFromURL "https://h/resources/1/a" then some (Json.str "O")
  else if s = pathFromURL "https://h/resources/1/_meta/nonce" then some (Json.str "N")
  else none

/-- C1: refuted as stated.  reconstructOriginalFromMaskPaths starts its
accumulator from the maskedResource argument itself (src/index.js line
367) and jsonpointer.set writes into it in place, so the resource field of
the result is the post-state of the caller's argument, and it differs from
the argument's prior value; likewise signResource assigns the missing jwk,
kid and jku properties into the caller's header object. -/
theorem c1_counterexample_mutation :
    (reconstructOriginalFromMaskPaths m0 (Json.arr [Json.str "/a"]) get0).map
      (fun res => res.resource) = Except.ok (Json.obj [("a", Json.str "O")]) ∧
    Json.obj [("a", Json.str "O")] ≠ m0 ∧
    signResourceHeaderPost hdr0 pk0 (fun _ => Json.str "PUB") ≠ Except.ok hdr0 := by
  decide

/-- Map phase of reconstructOriginalFromMaskPaths on compiled pointers:
every item is the path paired with its remote verification verdict, read
from the unmodified masked resource. -/
theorem recon_loop (masked : Json) (get : String → Option Json)
    (w : List String → Json) (vrf : List String → VerifyRemoteResult) :
    ∀ (l : List (List String)) (acc : List (String × VerifyRemoteResult)),
    (∀ τ ∈ l, getToks masked τ = some (w τ) ∧
      verifyRemote (w τ) get = Except.ok (vrf τ)) →
    List.mapM.loop (fun pj => do
        let p ← asStr pj
        let m ← getPtr masked p
        let vr ← verifyRemote m get
        pure (p, vr)) (l.map (fun τ => Json.str (compilePtr τ))) acc
      = Except.ok (acc.reverse ++ l.map (fun τ => (compilePtr τ, vrf τ))) := by
  intro l
  induction l with
  | nil =>
    intro acc _
    show Except.ok acc.reverse = Except.ok (acc.reverse ++ List.map _ [])
    rw [List.map_nil, List.append_nil]
  | cons τ l2 ih =>
    intro acc h
    have hτ := h τ (List.mem_cons_self τ l2)
    have hitem : (do
        let p ← asStr (Json.str (compilePtr τ))
        let m ← getPtr masked p
        let vr ← verifyRemote m get
        pure (p, vr)) = Except.ok (compilePtr τ, vrf τ) := by
      rw [except_bind_ok _ (show asStr (Json.str (compilePtr τ))
          = Except.ok (compilePtr τ) from rfl)]
      have hgp : getPtr masked (compilePtr τ) = Except.ok (w τ) := by
        rw [getPtr, parse_compile]
        show (match getToks masked τ with
          | none => Except.error ()
          | some v2 => Except.ok v2) = Except.ok (w τ)
        rw [hτ.1]
      rw [except_bind_ok _ hgp, except_bind_ok _ hτ.2]
      rfl
    show (do
      let b ← (do
        let p ← asStr (Json.str (compilePtr τ))
        let m ← getPtr masked p
        let vr ← verifyRemote m get
        pure (p, vr))
      List.mapM.loop (fun pj => do
        let p ← asStr pj
        let m ← getPtr masked p
        let vr ← verifyRemote m get
        pure (p, vr)) (l2.map (fun τ2 => Json.str (compilePtr τ2))) (b :: acc))
      = Except.ok (acc.reverse ++ (τ :: l2).map (fun τ2 => (compilePtr τ2, vrf τ2)))
    rw [except_bind_ok _ hitem]
    rw [ih ((compilePtr τ, vrf τ) :: acc) (fun τ2 h2 => h τ2 (List.mem_cons_of_mem _ h2))]
    rw [List.reverse_cons, List.append_assoc]
    rfl

/-- Reduce phase of reconstructOriginalFromMaskPaths: folding the
assignments over pairwise lead-free paths writes each fetched original at
its path and leaves every unrelated path reading as in the masked
resource. -/
theorem recon_fold (masked : Json) (vrf : List String → VerifyRemoteResult)
    (w : List String → Json) :
    ∀ (l done : List (List String)) (acc : ReconResult),
    (∀ τ, τ ∈ done ∨ τ ∈ l → τ ≠ []) →
    (done ++ l).Nodup →
    (∀ τ1 τ2, (τ1 ∈ done ∨ τ1 ∈ l) → (τ2 ∈ done ∨ τ2 ∈ l) → τ1 ≠ τ2 →
      leadB τ1 τ2 = false) →
    (∀ τ ∈ l, getToks masked τ = some (w τ)) →
    (∀ τ ∈ done, getToks acc.resource τ = some (vrf τ).original) →
    (∀ b, (∀ τ ∈ done, leadB τ b = false ∧ leadB b τ = false) →
      getToks acc.resource b = getToks masked b) →
    ∃ acc2, List.foldlM (fun acc pv => do
        let r2 ← setPtr acc.resource pv.1 pv.2.original
        pure { valid := acc.valid && pv.2.valid,
               jsMatch := acc.jsMatch && pv.2.jsMatch,
               details := acc.details ++ ["Path " ++ pv.1 ++ " recorded"],
               resource := r2 : ReconResult }) acc
        (l.map (fun τ => (compilePtr τ, vrf τ))) = Except.ok acc2 ∧
      (∀ τ, τ ∈ done ∨ τ ∈ l → getToks acc2.resource τ = some (vrf τ).original) ∧
      (∀ b, (∀ τ, τ ∈ done ∨ τ ∈ l → leadB τ b = false ∧ leadB b τ = false) →
        getToks acc2.resource b = getToks masked b) := by
  intro l
  induction l with
  | nil =>
    intro done acc hne hnd hpair hres ha hf
    refine ⟨acc, rfl, ?_, ?_⟩
    · intro τ hτ
      exact ha τ (hτ.resolve_right (by simp))
    · intro b hb
      exact hf b (fun τ hτ => hb τ (Or.inl hτ))
  | cons τ l2 ih =>
    intro done acc hne hnd hpair hres ha hf
    have hτmem : τ ∈ done ∨ τ ∈ τ :: l2 := Or.inr (List.mem_cons_self τ l2)
    have hτnotdone : τ ∉ done := fun hin =>
      (List.nodup_append.mp hnd).2.2 hin (List.mem_cons_self τ l2)
    have hτval : getToks acc.resource τ = getToks masked τ := by
      apply hf
      intro τd hτd
      refine ⟨?_, ?_⟩
      · exact hpair τd τ (Or.inl hτd) hτmem (fun he => hτnotdone (by rw [← he]; exact hτd))
      · exact hpair τ τd hτmem (Or.inl hτd) (fun he => hτnotdone (by rw [he]; exact hτd))
    have hw : getToks acc.resource τ = some (w τ) := by
      rw [hτval]
      exact hres τ (List.mem_cons_self τ l2)
    rcases setToks_spec τ acc.resource (w τ) (vrf τ).original
      (hne τ hτmem) hw with ⟨r2, hset, hget2, hframe, _⟩
    have hsetPtr : setPtr acc.resource (compilePtr τ) (vrf τ).original = Except.ok r2 := by
      rw [setPtr, parse_compile]
      exact hset
    have hstep : (do
        let r3 ← setPtr acc.resource (compilePtr τ) (vrf τ).original
        pure { valid := acc.valid && (vrf τ).valid,
               jsMatch := acc.jsMatch && (vrf τ).jsMatch,
               details := acc.details ++ ["Path " ++ compilePtr τ ++ " recorded"],
               resource := r3 : ReconResult }) = Except.ok
          { valid := acc.valid && (vrf τ).valid,
            jsMatch := acc.jsMatch && (vrf τ).jsMatch,
            details := acc.details ++ ["Path " ++ compilePtr τ ++ " recorded"],
            resource := r2 } := by
      rw [except_bind_ok _ hsetPtr]
      rfl
    have hmem : ∀ τ3 : List String,
        (τ3 ∈ done ++ [τ] ∨ τ3 ∈ l2) ↔ (τ3 ∈ done ∨ τ3 ∈ τ :: l2) := by
      intro τ3
      simp [List.mem_append, List.mem_cons]
      tauto
    have hnd2 : ((done ++ [τ]) ++ l2).Nodup := by
      rw [List.append_assoc]
      exact hnd
    have hne2 : ∀ τ3, τ3 ∈ done ++ [τ] ∨ τ3 ∈ l2 → τ3 ≠ [] :=
      fun τ3 h3 => hne τ3 ((hmem τ3).mp h3)
    have hpair2 : ∀ τ1 τ2, (τ1 ∈ done ++ [τ] ∨ τ1 ∈ l2) → (τ2 ∈ done ++ [τ] ∨ τ2 ∈ l2) →
        τ1 ≠ τ2 → leadB τ1 τ2 = false :=
      fun τ1 τ2 h1 h2 => hpair τ1 τ2 ((hmem τ1).mp h1) ((hmem τ2).mp h2)
    have hres2 : ∀ τ3 ∈ l2, getToks masked τ3 = some (w τ3) :=
      fun τ3 h3 => hres τ3 (List.mem_cons_of_mem _ h3)
    have ha2 : ∀ τ3 ∈ done ++ [τ], getToks r2 τ3 = some (vrf τ3).original := by
      intro τ3 hτ3
      rcases List.mem_append.mp hτ3 with h3 | h3
      · have hp1 : leadB τ τ3 = false := hpair τ τ3 hτmem (Or.inl h3)
          (fun he => hτnotdone (by rw [he]; exact h3))
        have hp2 : leadB τ3 τ = false := hpair τ3 τ (Or.inl h3) hτmem
          (fun he => hτnotdone (by rw [← he]; exact h3))
        rw [hframe τ3 hp1 hp2]
        exact ha τ3 h3
      · have h3τ : τ3 = τ := by simpa using h3
        rw [h3τ]
        exact hget2
    have hf2 : ∀ b, (∀ τ3 ∈ done ++ [τ], leadB τ3 b = false ∧ leadB b τ3 = false) →
        getToks r2 b = getToks masked b := by
      intro b hb
      have hbτ := hb τ (List.mem_append.mpr (Or.inr (by simp)))
      rw [hframe b hbτ.1 hbτ.2]
      exact hf b (fun τ3 h3 => hb τ3 (List.mem_append.mpr (Or.inl h3)))
    rcases ih (done ++ [τ])
        { valid := acc.valid && (vrf τ).valid,
          jsMatch := acc.jsMatch && (vrf τ).jsMatch,
          details := acc.details ++ ["Path " ++ compilePtr τ ++ " recorded"],
          resource := r2 }
        hne2 hnd2 hpair2 hres2 ha2 hf2 with ⟨acc2, hfold, hafin, hffin⟩
    refine ⟨acc2, ?_, ?_, ?_⟩
    · show (do
        let a1 ← (do
          let r3 ← setPtr acc.resource (compilePtr τ) (vrf τ).original
          pure { valid := acc.valid && (vrf τ).valid,
                 jsMatch := acc.jsMatch && (vrf τ).jsMatch,
                 details := acc.details ++ ["Path " ++ compilePtr τ ++ " recorded"],
                 resource := r3 : ReconResult })
        List.foldlM (fun acc3 pv => do
          let r3 ← setPtr acc3.resource pv.1 pv.2.original
          pure { valid := acc3.valid && pv.2.valid,
                 jsMatch := acc3.jsMatch && pv.2.jsMatch,
                 details := acc3.details ++ ["Path " ++ pv.1 ++ " recorded"],
                 resource := r3 : ReconResult }) a1
          (l2.map (fun τ2 => (compilePtr τ2, vrf τ2)))) = Except.ok acc2
      rw [except_bind_ok _ hstep]
      exact hfold
    · intro τ3 h3
      exact hafin τ3 ((hmem τ3).mpr h3)
    · intro b hb
      exact hffin b (fun τ3 h3 => hb τ3 ((hmem τ3).mp h3))

/-- C1 (amended): the mutation is confined.  A header that already carries
truthy jwk, kid and jku comes back from signResource untouched; when the
header is mutated, only those three properties are touched; and for every
call on a list of nonempty, resolvable, pairwise lead-free paths whose
remote verifications succeed, the reconstruction post-state of the
maskedResource argument holds the fetched original at every one of the
call paths while every path that neither leads nor extends any of them
reads as before.  (Pairwise lead-freedom is the shape the walker itself
produces on well-formed resources; with nested paths a later set writes
into a just-fetched original, so exact confinement needs it.) -/
theorem c1_mutation_characterization :
    (∀ hdr pk pub, truthy hdr = true →
      otruthy (Json.child hdr "jwk") = true →
      otruthy (Json.child hdr "kid") = true →
      otruthy (Json.child hdr "jku") = true →
      signResourceHeaderPost hdr pk pub = Except.ok hdr) ∧
    (∀ kvs pk pub h3 s, signResourceHeaderPost (Json.obj kvs) pk pub = Except.ok h3 →
      s ≠ "jwk" → s ≠ "kid" → s ≠ "jku" →
      Json.child h3 s = Json.child (Json.obj kvs) s) ∧
    (∀ (masked : Json) (get : String → Option Json) (toksList : List (List String))
      (w : List String → Json) (vrf : List String → VerifyRemoteResult),
      (∀ τ ∈ toksList, τ ≠ []) →
      toksList.Nodup →
      (∀ τ1 ∈ toksList, ∀ τ2 ∈ toksList, τ1 ≠ τ2 → leadB τ1 τ2 = false) →
      (∀ τ ∈ toksList, getToks masked τ = some (w τ) ∧
        verifyRemote (w τ) get = Except.ok (vrf τ)) →
      ∃ res, reconstructOriginalFromMaskPaths masked
          (Json.arr (toksList.map (fun τ => Json.str (compilePtr τ)))) get
          = Except.ok res ∧
        (∀ τ ∈ toksList, getToks res.resource τ = some (vrf τ).original) ∧
        (∀ b, (∀ τ ∈ toksList, leadB τ b = false ∧ leadB b τ = false) →
          getToks res.resource b = getToks masked b)) := by
  refine ⟨?_, ?_, ?_⟩
  · intro hdr pk pub h0 hj hk hju
    have hstep : signResourceHeaderPost hdr pk pub = (do
        let h2 ← fillHeaderKey hdr "kid" (do
          let kidO ← Json.propAccess pk "kid"
          pure (kidO.getD Json.null))
        let h3 ← fillHeaderKey h2 "jku" (do
          let jkuO ← Json.propAccess pk "jku"
          pure (jkuO.getD Json.null))
        pure h3) := by
      rw [signResourceHeaderPost]
      simp only [h0, if_true, hj]
    rw [hstep, except_bind_ok _ (fillHeaderKey_noop _ hk),
      except_bind_ok _ (fillHeaderKey_noop _ hju)]
    rfl
  · intro kvs pk pub h3 s hok hs1 hs2 hs3
    rw [signResourceHeaderPost] at hok
    simp only [truthy_obj, if_true] at hok
    cases hk : fillHeaderKey (if otruthy (Json.child (Json.obj kvs) "jwk") then Json.obj kvs
        else jsSet (Json.obj kvs) "jwk" (pub pk)) "kid" (do
          let kidO ← Json.propAccess pk "kid"
          pure (kidO.getD Json.null)) with
    | error e =>
      rw [hk] at hok
      exact Except.noConfusion (show (Except.error e : Except Unit Json) = Except.ok h3 from hok)
    | ok h2v =>
      rw [hk] at hok
      have hok2 : (do
          let h3x ← fillHeaderKey h2v "jku" (do
            let jkuO ← Json.propAccess pk "jku"
            pure (jkuO.getD Json.null))
          pure h3x) = Except.ok h3 := hok
      cases hj : fillHeaderKey h2v "jku" (do
          let jkuO ← Json.propAccess pk "jku"
          pure (jkuO.getD Json.null)) with
      | error e =>
        rw [hj] at hok2
        exact Except.noConfusion (show (Except.error e : Except Unit Json) = Except.ok h3 from hok2)
      | ok h3v =>
        rw [hj] at hok2
        have hok3 : Except.ok h3v = Except.ok h3 := hok2
        rw [← Except.ok.inj hok3]
        rw [fillHeaderKey_child_other hj s hs3, fillHeaderKey_child_other hk s hs2]
        exact condSet_child_other (Json.obj kvs) "jwk" s (pub pk) hs1
  · intro masked get toksList w vrf hne hnd hpair hvr
    rcases recon_fold masked vrf w toksList []
        { valid := true, jsMatch := true, details := [], resource := masked }
        (fun τ h => hne τ (h.resolve_left (by simp)))
        hnd
        (fun τ1 τ2 h1 h2 => hpair τ1 (h1.resolve_left (by simp))
          τ2 (h2.resolve_left (by simp)))
        (fun τ h => (hvr τ h).1)
        (fun τ h => absurd h (by simp))
        (fun b _ => rfl)
      with ⟨acc2, hfold, hafin, hffin⟩
    refine ⟨acc2, ?_, ?_, ?_⟩
    · rw [reconstructOriginalFromMaskPaths]
      rw [except_bind_ok _ (show
          asArray (Json.arr (toksList.map (fun τ => Json.str (compilePtr τ))))
          = Except.ok (toksList.map (fun τ => Json.str (compilePtr τ))) from rfl)]
      have hitems : List.mapM (fun pj => do
          let p ← asStr pj
          let m ← getPtr masked p
          let vr ← verifyRemote m get
          pure (p, vr)) (toksList.map (fun τ => Json.str (compilePtr τ)))
          = Except.ok (toksList.map (fun τ => (compilePtr τ, vrf τ))) :=
        recon_loop masked get w vrf toksList [] hvr
      rw [except_bind_ok _ hitems]
      exact hfold
    · intro τ h
      exact hafin τ (Or.inr h)
    · intro b hb
      exact hffin b (fun τ3 h3 => hb τ3 (h3.resolve_left (by simp)))

/-! Claim C8: masking then walking finds the masked paths again. -/

theorem getToks_append : ∀ (a b : List String) (r : Json),
    getToks r (a ++ b) = (getToks r a).bind (fun v => getToks v b) := by
  intro a
  induction a with
  | nil => intro b r; rfl
  | cons t a2 ih =>
    intro b r
    rw [List.cons_append, getToks, getToks]
    cases hch : Json.child r t with
    | none => rfl
    | some c => exact ih b c

theorem getToks_lead_some {q toks : List String} {r v : Json}
    (hl : leadB q toks = true) (hv : getToks r toks = some v) :
    ∃ n, getToks r q = some n := by
  rcases leadB_iff_append.mp hl with ⟨c, hc⟩
  rw [hc, getToks_append] at hv
  cases hq : getToks r q with
  | none => rw [hq] at hv; exact absurd hv (by simp)
  | some n => exact ⟨n, rfl⟩

theorem leadB_antisymm {a b : List String} (h1 : leadB a b = true)
    (h2 : leadB b a = true) : a = b := by
  rcases leadB_iff_append.mp h1 with ⟨c, hc⟩
  rcases leadB_iff_append.mp h2 with ⟨d, hd⟩
  rw [hc] at hd
  have hlen : (a ++ c ++ d).length = a.length := congrArg List.length hd.symm
  rw [List.length_append, List.length_append] at hlen
  have hc0 : c = [] := List.length_eq_zero.mp (by omega)
  rw [hc, hc0]
  simp

theorem truthy_append_str (u s : String) (hs : s ≠ "") :
    truthy (Json.str (u ++ s)) = true := by
  rw [truthy]
  have h : (u ++ s) ≠ "" := by
    intro he
    have hd : u.data ++ s.data = ([] : List Char) := congrArg String.data he
    rcases List.append_eq_nil.mp hd with ⟨_, h2⟩
    exact hs (congrArg String.mk h2 |>.trans rfl)
  simp [h]

/-- mask succeeds for every truthy nonceurl and its mask field carries a
truthy trellis-mask property. -/
theorem mask_ok (original url nonce0 nonceurl : Json) (fresh : String)
    (h : truthy nonceurl = true) :
    ∃ mr, mask original url nonce0 nonceurl fresh = Except.ok mr ∧
      tmTruthy mr.mask = true := by
  refine ⟨{ nonce := if truthy nonce0 then nonce0 else .str fresh,
            nonceurl := nonceurl,
            mask := Json.obj [("trellis-mask", Json.obj [
              ("version", Json.str "1.0"),
              ("hashinfo", hashJSON (Json.obj [("original", original),
                ("nonce", if truthy nonce0 then nonce0 else Json.str fresh)])),
              ("url", url), ("nonceurl", nonceurl)])] }, ?_, rfl⟩
  rw [mask]
  simp only [h]
  rfl

/-- Invariant of the maskResource fold: after masking the paths in done,
every done path reads a value with a truthy trellis-mask, and every path
led by no done path keeps the trellis-mask truthiness it had in the
original resource. -/
theorem maskFold_invariant
    (resource : Json) (u : String) (nonce nonceurl : Json) (fresh : String)
    (hnu : truthy nonceurl = true) :
    ∀ (rem done : List (List String)) (r : Json),
    (done ++ rem).Nodup →
    (∀ τ, τ ∈ done ∨ τ ∈ rem → τ ≠ [] ∧ "trellis-mask" ∉ τ ∧
      ∃ v, getToks resource τ = some v) →
    (∀ τ1 τ2, (τ1 ∈ done ∨ τ1 ∈ rem) → (τ2 ∈ done ∨ τ2 ∈ rem) → τ1 ≠ τ2 →
      leadB τ1 τ2 = false) →
    (∀ τ, τ ∈ done → ∃ m, getToks r τ = some m ∧ tmTruthy m = true) →
    (∀ q, (∀ τ, τ ∈ done → leadB τ q = false) →
      (getToks r q).map tmTruthy = (getToks resource q).map tmTruthy) →
    ∃ rfinal, List.foldlM (fun rr p => do
        let objToMask ← getPtr resource p
        let mr ← mask objToMask (Json.str (u ++ p)) nonce nonceurl fresh
        setPtr rr p mr.mask) r (rem.map compilePtr) = Except.ok rfinal ∧
      (∀ τ, τ ∈ done ∨ τ ∈ rem → ∃ m, getToks rfinal τ = some m ∧ tmTruthy m = true) ∧
      (∀ q, (∀ τ, τ ∈ done ∨ τ ∈ rem → leadB τ q = false) →
        (getToks rfinal q).map tmTruthy = (getToks resource q).map tmTruthy) := by
  intro rem
  induction rem with
  | nil =>
    intro done r hnd hwf hpair ha hc
    refine ⟨r, rfl, ?_, ?_⟩
    · intro τ hτ
      exact ha τ (hτ.resolve_right (by simp))
    · intro q hq
      exact hc q (fun τ hτ => hq τ (Or.inl hτ))
  | cons τ rem2 ih =>
    intro done r hnd hwf hpair ha hc
    have hτmem : τ ∈ done ∨ τ ∈ τ :: rem2 := Or.inr (List.mem_cons_self τ rem2)
    rcases hwf τ hτmem with ⟨hτne, hτtm, v, hτres⟩
    have hτnotdone : τ ∉ done := by
      intro hin
      exact (List.nodup_append.mp hnd).2.2 hin (List.mem_cons_self τ rem2)
    have hcτ : (getToks r τ).map tmTruthy = (getToks resource τ).map tmTruthy :=
      hc τ (fun τi hτi => hpair τi τ (Or.inl hτi) hτmem
        (fun he => hτnotdone (by rw [← he]; exact hτi)))
    have hwex : ∃ w, getToks r τ = some w := by
      rw [hτres] at hcτ
      cases hrq : getToks r τ with
      | none => rw [hrq] at hcτ; exact absurd hcτ (by simp)
      | some w => exact ⟨w, rfl⟩
    rcases hwex with ⟨w, hw⟩
    rcases mask_ok v (Json.str (u ++ compilePtr τ)) nonce nonceurl fresh hnu with ⟨mr, hmr, hmrtm⟩
    rcases setToks_spec τ r w mr.mask hτne hw with ⟨r2, hset, hget2, hframe, hlead⟩
    have hgetPtr : getPtr resource (compilePtr τ) = Except.ok v := by
      rw [getPtr, parse_compile]
      show (match getToks resource τ with
        | none => Except.error ()
        | some v2 => Except.ok v2) = Except.ok v
      rw [hτres]
    have hsetPtr : setPtr r (compilePtr τ) mr.mask = Except.ok r2 := by
      rw [setPtr, parse_compile]
      exact hset
    have hstep : (do
        let objToMask ← getPtr resource (compilePtr τ)
        let mr2 ← mask objToMask (Json.str (u ++ compilePtr τ)) nonce nonceurl fresh
        setPtr r (compilePtr τ) mr2.mask) = Except.ok r2 := by
      rw [except_bind_ok _ hgetPtr, except_bind_ok _ hmr]
      exact hsetPtr
    have hmem : ∀ τ3 : List String,
        (τ3 ∈ done ++ [τ] ∨ τ3 ∈ rem2) ↔ (τ3 ∈ done ∨ τ3 ∈ τ :: rem2) := by
      intro τ3
      simp [List.mem_append, List.mem_cons]
      tauto
    have hnd2 : ((done ++ [τ]) ++ rem2).Nodup := by
      rw [List.append_assoc]
      exact hnd
    have hwf2 : ∀ τ3, τ3 ∈ done ++ [τ] ∨ τ3 ∈ rem2 → τ3 ≠ [] ∧ "trellis-mask" ∉ τ3 ∧
        ∃ v2, getToks resource τ3 = some v2 := fun τ3 h3 => hwf τ3 ((hmem τ3).mp h3)
    have hpair2 : ∀ τ1 τ2, (τ1 ∈ done ++ [τ] ∨ τ1 ∈ rem2) → (τ2 ∈ done ++ [τ] ∨ τ2 ∈ rem2) →
        τ1 ≠ τ2 → leadB τ1 τ2 = false :=
      fun τ1 τ2 h1 h2 hne => hpair τ1 τ2 ((hmem τ1).mp h1) ((hmem τ2).mp h2) hne
    have ha2 : ∀ τ3, τ3 ∈ done ++ [τ] → ∃ m, getToks r2 τ3 = some m ∧ tmTruthy m = true := by
      intro τ3 hτ3
      rcases List.mem_append.mp hτ3 with h3 | h3
      · rcases ha τ3 h3 with ⟨m, hm, hmtm⟩
        have hp1 : leadB τ τ3 = false := hpair τ τ3 hτmem (Or.inl h3)
          (fun he => hτnotdone (by rw [he]; exact h3))
        have hp2 : leadB τ3 τ = false := hpair τ3 τ (Or.inl h3) hτmem
          (fun he => hτnotdone (by rw [← he]; exact h3))
        exact ⟨m, by rw [hframe τ3 hp1 hp2]; exact hm, hmtm⟩
      · have hτ3τ : τ3 = τ := by simpa using h3
        rw [hτ3τ]
        exact ⟨mr.mask, hget2, hmrtm⟩
    have hc2 : ∀ q, (∀ τ3, τ3 ∈ done ++ [τ] → leadB τ3 q = false) →
        (getToks r2 q).map tmTruthy = (getToks resource q).map tmTruthy := by
      intro q hq
      have hqτ : leadB τ q = false := hq τ (List.mem_append.mpr (Or.inr (by simp)))
      have hqdone : ∀ τ3, τ3 ∈ done → leadB τ3 q = false :=
        fun τ3 h3 => hq τ3 (List.mem_append.mpr (Or.inl h3))
      by_cases hlq : leadB q τ = true
      · have hqne : q ≠ τ := by
          intro he
          rw [he] at hqτ
          rw [leadB_refl] at hqτ
          simp at hqτ
        rcases leadB_iff_append.mp hlq with ⟨ext, hext⟩
        cases hextc : ext with
        | nil =>
          rw [hextc] at hext
          simp at hext
          exact absurd hext.symm hqne
        | cons t2 rest2 =>
          rw [hextc] at hext
          have hcq : (getToks r q).map tmTruthy = (getToks resource q).map tmTruthy :=
            hc q hqdone
          rcases getToks_lead_some hlq hτres with ⟨n0, hn0⟩
          have hnr : ∃ nq, getToks r q = some nq := by
            rw [hn0] at hcq
            cases hrq : getToks r q with
            | none => rw [hrq] at hcq; exact absurd hcq (by simp)
            | some nq => exact ⟨nq, rfl⟩
          rcases hnr with ⟨nq, hnq⟩
          have htmq : tmTruthy nq = tmTruthy n0 := by
            rw [hnq, hn0] at hcq
            simpa using hcq
          rcases hlead q t2 rest2 hext nq hnq with ⟨nq2, hnq2, hpres⟩
          have ht2 : t2 ≠ "trellis-mask" := by
            intro he
            apply hτtm
            rw [hext, he]
            exact List.mem_append.mpr (Or.inr (List.mem_cons_self _ _))
          have htm2 : tmTruthy nq2 = tmTruthy nq := by
            rw [tmTruthy, tmTruthy, hpres "trellis-mask" (fun he => ht2 he.symm)]
          rw [hnq2, hn0]
          show some (tmTruthy nq2) = some (tmTruthy n0)
          rw [htm2, htmq]
      · have hlq2 : leadB q τ = false := by
          cases h2 : leadB q τ with
          | false => rfl
          | true => exact absurd h2 hlq
        rw [hframe q hqτ hlq2]
        exact hc q hqdone
    rcases ih (done ++ [τ]) r2 hnd2 hwf2 hpair2 ha2 hc2 with ⟨rfinal, hfold, hafin, hcfin⟩
    refine ⟨rfinal, ?_, ?_, ?_⟩
    · show (do
        let r3 ← (do
          let objToMask ← getPtr resource (compilePtr τ)
          let mr2 ← mask objToMask (Json.str (u ++ compilePtr τ)) nonce nonceurl fresh
          setPtr r (compilePtr τ) mr2.mask)
        List.foldlM (fun rr p => do
          let objToMask ← getPtr resource p
          let mr2 ← mask objToMask (Json.str (u ++ p)) nonce nonceurl fresh
          setPtr rr p mr2.mask) r3 (rem2.map compilePtr)) = Except.ok rfinal
      rw [except_bind_ok _ hstep]
      exact hfold
    · intro τ3 hτ3
      exact hafin τ3 ((hmem τ3).mpr hτ3)
    · intro q hq
      exact hcfin q (fun τ3 h3 => hq τ3 ((hmem τ3).mp h3))

/-- Resource for the nested-paths counterexample. -/
def c8res : Json := Json.obj [("a", Json.obj [("b", Json.num 1)])]

/-- C8: refuted as stated.  Masking both /a and /a/b succeeds (the subtree
for each path is read from the original resource), but the walker stops at
the first truthy trellis-mask it meets, so it returns only /a and the
masked path /a/b is not found again: the superset inclusion fails when one
masked path extends another. -/
theorem c8_counterexample_nested_paths :
    (maskResource c8res "https://u" ["/a", "/a/b"] Json.null Json.null "F").map
      (fun res => findAllMaskPathsInResource res.resource) = Except.ok ["/a"] ∧
    ("/a/b" : String) ∉ (["/a"] : List String) := by decide

/-- C8 (amended): the superset inclusion holds for every family of
resolvable, nonempty, pairwise lead-free paths that avoid the reference
token trellis-mask and whose proper leads carry no truthy trellis-mask in
the original resource. -/
theorem c8_mask_then_find_superset
    (resource : Json) (u : String) (toksList : List (List String))
    (nonce0 nonceurl0 : Json) (fresh : String)
    (hu : ¬ u = "")
    (hwf : ∀ τ ∈ toksList, τ ≠ [] ∧ "trellis-mask" ∉ τ ∧
      ∃ v, getToks resource τ = some v)
    (hnd : toksList.Nodup)
    (hpair : ∀ τ1 ∈ toksList, ∀ τ2 ∈ toksList, τ1 ≠ τ2 → leadB τ1 τ2 = false)
    (hleads : ∀ τ ∈ toksList, ∀ q n, leadB q τ = true → q ≠ τ →
      getToks resource q = some n → tmTruthy n = false) :
    ∃ res, maskResource resource u (toksList.map compilePtr) nonce0 nonceurl0 fresh
        = Except.ok res ∧
      ∀ p ∈ toksList.map compilePtr, p ∈ findAllMaskPathsInResource res.resource := by
  have hnu : truthy (if truthy nonceurl0 then nonceurl0
      else Json.str (u ++ "/_meta/nonce")) = true := by
    by_cases h0 : truthy nonceurl0 = true
    · rw [if_pos h0]; exact h0
    · rw [if_neg h0]
      exact truthy_append_str u "/_meta/nonce" (by decide)
  rcases maskFold_invariant resource u
      (if truthy nonce0 then nonce0 else Json.str fresh)
      (if truthy nonceurl0 then nonceurl0 else Json.str (u ++ "/_meta/nonce"))
      fresh hnu toksList [] resource hnd
      (fun τ h => hwf τ (h.resolve_left (by simp)))
      (fun τ1 τ2 h1 h2 hne => hpair τ1 (h1.resolve_left (by simp))
        τ2 (h2.resolve_left (by simp)) hne)
      (fun τ h => absurd h (by simp))
      (fun q _ => rfl)
    with ⟨rfinal, hfold, hafin, hcfin⟩
  refine ⟨{ nonce := (if truthy nonce0 then nonce0 else Json.str fresh),
            resource := rfinal,
            nonceurl := (if truthy nonceurl0 then nonceurl0
              else Json.str (u ++ "/_meta/nonce")) }, ?_, ?_⟩
  · rw [maskResource, if_neg hu]
    show (((toksList.map compilePtr).foldlM (fun r p => do
        let objToMask ← getPtr resource p
        let mr ← mask objToMask (Json.str (u ++ p))
          (if truthy nonce0 then nonce0 else Json.str fresh)
          (if truthy nonceurl0 then nonceurl0 else Json.str (u ++ "/_meta/nonce")) fresh
        setPtr r p mr.mask) resource).map
      (fun r => { nonce := (if truthy nonce0 then nonce0 else Json.str fresh),
                  resource := r,
                  nonceurl := (if truthy nonceurl0 then nonceurl0
                    else Json.str (u ++ "/_meta/nonce")) : MaskResourceResult }))
      = Except.ok { nonce := (if truthy nonce0 then nonce0 else Json.str fresh),
                    resource := rfinal,
                    nonceurl := (if truthy nonceurl0 then nonceurl0
                      else Json.str (u ++ "/_meta/nonce")) }
    rw [hfold]
    rfl
  · intro p hp
    rcases List.mem_map.mp hp with ⟨τ, hτmem, hpc⟩
    rw [findAll_eq_compile]
    rcases hafin τ (Or.inr hτmem) with ⟨m, hm, hmtm⟩
    refine List.mem_map.mpr ⟨τ, maskPaths_complete τ rfinal m hm hmtm ?_, hpc⟩
    intro q n hlq hqne hgq
    have hqcond : ∀ τ3, τ3 ∈ ([] : List (List String)) ∨ τ3 ∈ toksList →
        leadB τ3 q = false := by
      intro τ3 h3
      have h3m : τ3 ∈ toksList := h3.resolve_left (by simp)
      cases hl3 : leadB τ3 q with
      | false => rfl
      | true =>
        exfalso
        by_cases he3 : τ3 = q
        · rw [he3] at h3m
          have hpf := hpair q h3m τ hτmem hqne
          rw [hpf] at hlq
          exact absurd hlq (by simp)
        · have hl3τ : leadB τ3 τ = true := leadB_trans hl3 hlq
          by_cases he3τ : τ3 = τ
          · rw [he3τ] at hl3
            exact hqne (leadB_antisymm hlq hl3)
          · have hpf := hpair τ3 h3m τ hτmem he3τ
            rw [hpf] at hl3τ
            exact absurd hl3τ (by simp)
    have hmap := hcfin q hqcond
    rw [hgq] at hmap
    have hex : ∃ n0, getToks resource q = some n0 := by
      cases hr0 : getToks resource q with
      | none => rw [hr0] at hmap; exact absurd hmap (by simp)
      | some n0 => exact ⟨n0, rfl⟩
    rcases hex with ⟨n0, hn0⟩
    rw [hn0] at hmap
    have htm : tmTruthy n = tmTruthy n0 := by simpa using hmap
    rw [htm]
    exact hleads τ hτmem q n0 hlq hqne hn0

/-- Closed instance of the amended superset theorem: masking the single
path /a of the counterexample resource and walking the result finds /a
again. -/
theorem c8_mask_then_find_superset_witness :
    ∃ res, maskResource c8res "https://u" ([["a"]].map compilePtr)
        Json.null Json.null "F" = Except.ok res ∧
      ∀ p ∈ [["a"]].map compilePtr, p ∈ findAllMaskPathsInResource res.resource :=
  c8_mask_then_find_superset c8res "https://u" [["a"]] Json.null Json.null "F"
    (by decide)
    (by
      intro τ hτ
      have hτa : τ = ["a"] := by simpa using hτ
      rw [hτa]
      exact ⟨by decide, by decide, ⟨Json.obj [("b", Json.num 1)], by decide⟩⟩)
    (by decide)
    (by
      intro τ1 h1 τ2 h2 hne
      have e1 : τ1 = ["a"] := by simpa using h1
      have e2 : τ2 = ["a"] := by simpa using h2
      rw [e1, e2] at hne
      exact absurd rfl hne)
    (by
      intro τ hτ q n hl hne hg
      have hτa : τ = ["a"] := by simpa using hτ
      rw [hτa] at hl hne
      cases q with
      | nil =>
        have hn : n = c8res := by
          have h2 : some c8res = some n := hg
          exact (Option.some.inj h2).symm
        rw [hn]
        decide
      | cons x q2 =>
        have hand : x = "a" ∧ leadB q2 [] = true := by
          rw [leadB] at hl
          simpa using hl
        have hq22 : q2 = [] := leadB_nil_right hand.2
        rw [hand.1, hq22] at hne
        exact absurd rfl hne)

end Masklink
